import Mathlib

/-!
Verification of the stc txrep codec: a shallow embedding of the
line-oriented textual encoder (`XdrToTxrep`), decoder (`XdrFromTxrep`)
and the scalar renderers (`ScaleFmt`, `renderCode`, `scanCode`,
`PrintVecOpaque`) of the stc repository, together with proofs about
round-tripping, error accumulation and the legacy source-account shim.

Strings are modelled as `List Char` (Go reads runes); Go's `fmt`
rendering of integers is modelled by explicit digit functions.
-/

set_option maxHeartbeats 1000000

namespace StcTxrep

abbrev Chars := List Char

/-- Decimal digit character for `n < 10` (models Go `fmt` digit output). -/
def digitChar (n : Nat) : Char := Char.ofNat (48 + n)

/-- Fuel-driven digit loop: structural recursion keeps the definition
kernel-computable; the fuel is always sufficient at `n + 1`. -/
def natDecGo : Nat → Nat → Chars
  | 0, _ => []
  | fuel + 1, n =>
    if n < 10 then [digitChar n]
    else natDecGo fuel (n / 10) ++ [digitChar (n % 10)]

/-- Go `%d` rendering of a natural number, most significant digit first. -/
def natDec (n : Nat) : Chars := natDecGo (n + 1) n

theorem natDecGo_fuel (f1 : Nat) : ∀ f2 n, n < f1 → n < f2 →
    natDecGo f1 n = natDecGo f2 n := by
  induction f1 using Nat.strong_induction_on with
  | _ f1 ih =>
    intro f2 n h1 h2
    match f1, f2 with
    | fa + 1, fb + 1 =>
      simp only [natDecGo]
      by_cases h10 : n < 10
      · simp [h10]
      · simp only [h10, if_false]
        rw [ih fa (by omega) fb (n / 10) (by omega) (by omega)]

/-- The recursion equation of the Go loop. -/
theorem natDec_eq (n : Nat) : natDec n =
    if n < 10 then [digitChar n]
    else natDec (n / 10) ++ [digitChar (n % 10)] := by
  show natDecGo (n + 1) n = _
  by_cases h10 : n < 10
  · simp [natDecGo, h10]
  · simp only [natDecGo, h10, if_false]
    rw [natDecGo_fuel n (n / 10 + 1) (n / 10) (by omega) (by omega)]
    rfl

/-- Digit test on the rune value (Go checks `'0' <= r && r <= '9'`). -/
def isDig (c : Char) : Bool := 48 ≤ c.toNat && c.toNat ≤ 57

/-- Go `%d` rendering of a signed integer. -/
def intDec (v : Int) : Chars :=
  if v < 0 then '-' :: natDec v.natAbs else natDec v.toNat

/-- Value of a most-significant-first digit string. -/
def digsVal (ds : Chars) : Nat :=
  ds.foldl (fun a c => a * 10 + (c.toNat - 48)) 0

/-- Go `unicode.IsSpace` on the rune `c`. -/
def goIsSpace (c : Char) : Bool :=
  c.toNat ∈ [9, 10, 11, 12, 13, 32, 0x85, 0xA0, 0x1680,
    0x2000, 0x2001, 0x2002, 0x2003, 0x2004, 0x2005, 0x2006, 0x2007,
    0x2008, 0x2009, 0x200A, 0x2028, 0x2029, 0x202F, 0x205F, 0x3000]

/-- The first whitespace-delimited token of `cs` (Go `%s` scanning);
empty when `cs` is all whitespace. -/
def tokenOf (cs : Chars) : Chars :=
  (cs.dropWhile goIsSpace).takeWhile (fun c => !goIsSpace c)

/-- Greedy digit prefix after skipping leading whitespace, as Go's
integer verbs read digits from the stream; `none` when no digit. -/
def parseNatRaw (cs : Chars) : Option Nat :=
  let t := (cs.dropWhile goIsSpace).takeWhile isDig
  if t = [] then none else some (digsVal t)

/-- Signed variant: optional `-`/`+` sign before the digits. -/
def parseIntRaw (cs : Chars) : Option Int :=
  let ds := cs.dropWhile goIsSpace
  if ds.head? = some '-' then
    let t := ds.tail.takeWhile isDig
    if t = [] then none else some (-(digsVal t : Int))
  else if ds.head? = some '+' then
    let t := ds.tail.takeWhile isDig
    if t = [] then none else some (digsVal t : Int)
  else
    let t := ds.takeWhile isDig
    if t = [] then none else some (digsVal t : Int)

/-- Go scan of a `uint32` (`fmt.Sscan` into `*uint32`): base 10,
no sign, overflow is an error. -/
def parseU32 (cs : Chars) : Option Nat :=
  match parseNatRaw cs with
  | some v => if v < 2 ^ 32 then some v else none
  | none => none

/-- Go scan of a `uint64`. -/
def parseU64 (cs : Chars) : Option Nat :=
  match parseNatRaw cs with
  | some v => if v < 2 ^ 64 then some v else none
  | none => none

/-- Go scan of an `int64`. -/
def parseI64 (cs : Chars) : Option Int :=
  match parseIntRaw cs with
  | some v => if -(2 ^ 63) ≤ v ∧ v < 2 ^ 63 then some v else none
  | none => none

/-- Go scan of an `int32`. -/
def parseI32 (cs : Chars) : Option Int :=
  match parseIntRaw cs with
  | some v => if -(2 ^ 31) ≤ v ∧ v < 2 ^ 31 then some v else none
  | none => none

/-- Lowercase hexadecimal digit character for `n < 16`. -/
def hexDigChar (n : Nat) : Char :=
  if n < 10 then Char.ofNat (48 + n) else Char.ofNat (87 + n)

/-- Two lowercase hex digits of a byte (Go `%02x` / `%x` per byte). -/
def hexByte (b : Nat) : Chars := [hexDigChar (b / 16), hexDigChar (b % 16)]

/-- Go `%x` rendering of a byte slice: two lowercase hex digits per byte. -/
def hexEnc (bs : List Nat) : Chars := bs.flatMap hexByte

/-- Value of one hex digit character, `none` for a non-hex character. -/
def hexVal (c : Char) : Option Nat :=
  if 48 ≤ c.toNat ∧ c.toNat ≤ 57 then some (c.toNat - 48)
  else if 97 ≤ c.toNat ∧ c.toNat ≤ 102 then some (c.toNat - 87)
  else if 65 ≤ c.toNat ∧ c.toNat ≤ 70 then some (c.toNat - 55)
  else none

/-- Hex-decode a whole digit string into bytes; fails on a non-hex
character or an odd number of digits (Go `hex` decoding). -/
def hexParseAll : Chars → Option (List Nat)
  | [] => some []
  | [_] => none
  | c1 :: c2 :: rest =>
    match hexVal c1, hexVal c2, hexParseAll rest with
    | some h, some l, some bs => some ((h * 16 + l) :: bs)
    | _, _, _ => none

/-! ### Lemmas about the digit helpers -/

theorem digitChar_isDig {n : Nat} (h : n < 10) : isDig (digitChar n) = true := by
  interval_cases n <;> decide

theorem digitChar_toNat {n : Nat} (h : n < 10) : (digitChar n).toNat = 48 + n := by
  interval_cases n <;> decide

theorem natDec_ne_nil (n : Nat) : natDec n ≠ [] := by
  rw [natDec_eq]
  split <;> simp

theorem natDec_digits (n : Nat) : ∀ c ∈ natDec n, isDig c = true := by
  induction n using Nat.strong_induction_on with
  | _ n ih =>
    rw [natDec_eq]
    split
    next h =>
      intro c hc
      simp at hc
      subst hc
      exact digitChar_isDig h
    next h =>
      intro c hc
      simp at hc
      rcases hc with hc | hc
      · exact ih (n / 10) (Nat.div_lt_self (by omega) (by omega)) c hc
      · subst hc
        exact digitChar_isDig (Nat.mod_lt _ (by omega))

theorem digsVal_cons_init (es : Chars) :
    ∀ a : Nat, es.foldl (fun a c => a * 10 + (c.toNat - 48)) a
      = a * 10 ^ es.length + digsVal es := by
  induction es with
  | nil => intro a; simp [digsVal]
  | cons c cs ih =>
    intro a
    simp only [List.foldl_cons, List.length_cons, digsVal]
    rw [ih (a * 10 + (c.toNat - 48)), ih (0 * 10 + (c.toNat - 48))]
    ring

theorem digsVal_append (ds es : Chars) :
    digsVal (ds ++ es) = digsVal ds * 10 ^ es.length + digsVal es := by
  simp only [digsVal, List.foldl_append]
  exact digsVal_cons_init es (digsVal ds)

theorem digsVal_natDec (n : Nat) : digsVal (natDec n) = n := by
  induction n using Nat.strong_induction_on with
  | _ n ih =>
    rw [natDec_eq]
    split
    next h =>
      simp [digsVal, digitChar_toNat h]
    next h =>
      rw [digsVal_append, ih (n / 10) (Nat.div_lt_self (by omega) (by omega))]
      have hm : n % 10 < 10 := Nat.mod_lt n (by omega)
      simp [digsVal, digitChar_toNat hm]
      omega

theorem takeWhile_all_append {p : Char → Bool} {l r : Chars}
    (h : ∀ c ∈ l, p c = true) :
    (l ++ r).takeWhile p = l ++ r.takeWhile p := by
  induction l with
  | nil => simp
  | cons c cs ih =>
    simp only [List.cons_append, List.takeWhile_cons, h c (by simp)]
    simp [ih fun d hd => h d (by simp [hd])]

theorem dropWhile_all_append {p : Char → Bool} {l r : Chars}
    (h : ∀ c ∈ l, p c = true) :
    (l ++ r).dropWhile p = r.dropWhile p := by
  induction l with
  | nil => simp
  | cons c cs ih =>
    simp only [List.cons_append, List.dropWhile_cons]
    rw [h c (by simp)]
    simp only [if_true]
    exact ih fun d hd => h d (by simp [hd])

theorem takeWhile_none {p : Char → Bool} {l : Chars}
    (h : ∀ c ∈ l, p c = false) : l.takeWhile p = [] := by
  cases l with
  | nil => rfl
  | cons c cs => simp [List.takeWhile_cons, h c (by simp)]

theorem digit_not_space {c : Char} (h : isDig c = true) : goIsSpace c = false := by
  simp only [isDig, Bool.and_eq_true, decide_eq_true_eq] at h
  simp only [goIsSpace, List.mem_cons, List.not_mem_nil, or_false, decide_eq_false_iff_not]
  omega

theorem takeWhile_nil_of_head {p : Char → Bool} {l : Chars}
    (h : ∀ c, l.head? = some c → p c = false) : l.takeWhile p = [] := by
  cases l with
  | nil => rfl
  | cons c cs => simp [List.takeWhile_cons, h c rfl]

theorem dropWhile_head_false {p : Char → Bool} {l : Chars} {c : Char} {cs : Chars}
    (hl : l = c :: cs) (h : p c = false) : l.dropWhile p = l := by
  subst hl
  simp [List.dropWhile_cons, h]

/-- `dropWhile` does nothing on a list whose head fails the predicate. -/
theorem dropWhile_cons_false {p : Char → Bool} {c : Char} {cs : Chars}
    (h : p c = false) : (c :: cs).dropWhile p = c :: cs := by
  simp [List.dropWhile_cons, h]

theorem dropWhile_natDec_append (n : Nat) (rest : Chars) :
    (natDec n ++ rest).dropWhile goIsSpace = natDec n ++ rest := by
  cases hd : natDec n with
  | nil => exact absurd hd (natDec_ne_nil n)
  | cons c cs =>
    simp only [List.cons_append]
    exact dropWhile_cons_false (digit_not_space (natDec_digits n c (by rw [hd]; simp)))

/-- Parsing the decimal rendering of `n` followed by non-digit residue
recovers `n` (with optional leading whitespace). -/
theorem parseNatRaw_natDec (n : Nat) (sp rest : Chars)
    (hsp : ∀ c ∈ sp, goIsSpace c = true)
    (hrest : ∀ c, rest.head? = some c → isDig c = false) :
    parseNatRaw (sp ++ (natDec n ++ rest)) = some n := by
  have hdigs := natDec_digits n
  have hne := natDec_ne_nil n
  unfold parseNatRaw
  rw [dropWhile_all_append hsp, dropWhile_natDec_append,
    takeWhile_all_append hdigs, takeWhile_nil_of_head hrest]
  simp [digsVal_natDec, hne]

theorem parseU32_natDec (n : Nat) (sp rest : Chars)
    (hn : n < 2 ^ 32)
    (hsp : ∀ c ∈ sp, goIsSpace c = true)
    (hrest : ∀ c, rest.head? = some c → isDig c = false) :
    parseU32 (sp ++ (natDec n ++ rest)) = some n := by
  unfold parseU32
  rw [parseNatRaw_natDec n sp rest hsp hrest]
  simp only [if_pos hn]

theorem parseU64_natDec (n : Nat) (sp rest : Chars)
    (hn : n < 2 ^ 64)
    (hsp : ∀ c ∈ sp, goIsSpace c = true)
    (hrest : ∀ c, rest.head? = some c → isDig c = false) :
    parseU64 (sp ++ (natDec n ++ rest)) = some n := by
  unfold parseU64
  rw [parseNatRaw_natDec n sp rest hsp hrest]
  simp only [if_pos hn]

theorem natDec_head_digit (n : Nat) :
    ∀ c, (natDec n).head? = some c → isDig c = true := by
  intro c hc
  apply natDec_digits n c
  cases hd : natDec n with
  | nil => rw [hd] at hc; simp at hc
  | cons d ds =>
    rw [hd] at hc
    simp at hc
    subst hc
    simp

/-- Parsing the decimal rendering of an `int64` followed by non-digit
residue recovers the value. -/
theorem parseIntRaw_intDec (v : Int) (sp rest : Chars)
    (hsp : ∀ c ∈ sp, goIsSpace c = true)
    (hrest : ∀ c, rest.head? = some c → isDig c = false) :
    parseIntRaw (sp ++ (intDec v ++ rest)) = some v := by
  unfold parseIntRaw
  by_cases hneg : v < 0
  · have hi : intDec v = '-' :: natDec v.natAbs := by rw [intDec, if_pos hneg]
    rw [hi]
    have hdw : (sp ++ (('-' :: natDec v.natAbs) ++ rest)).dropWhile goIsSpace
        = '-' :: (natDec v.natAbs ++ rest) := by
      rw [dropWhile_all_append hsp]
      simp only [List.cons_append]
      exact dropWhile_cons_false (by decide)
    simp only [hdw, List.head?_cons, Option.some.injEq, if_pos rfl, List.tail_cons]
    rw [takeWhile_all_append (natDec_digits _), takeWhile_nil_of_head hrest]
    simp [digsVal_natDec, natDec_ne_nil]
    rw [abs_of_neg hneg]
    ring
  · have hi : intDec v = natDec v.toNat := by rw [intDec, if_neg hneg]
    rw [hi]
    have hdw : (sp ++ (natDec v.toNat ++ rest)).dropWhile goIsSpace
        = natDec v.toNat ++ rest := by
      rw [dropWhile_all_append hsp]
      exact dropWhile_natDec_append _ _
    rw [hdw]
    have hhd : ∀ c, (natDec v.toNat ++ rest).head? = some c → isDig c = true := by
      intro c hc
      apply natDec_head_digit v.toNat c
      cases hd : natDec v.toNat with
      | nil => exact absurd hd (natDec_ne_nil _)
      | cons d ds =>
        rw [hd] at hc
        simp only [List.cons_append, List.head?_cons, Option.some.injEq] at hc
        simp [hc]
    have hne1 : (natDec v.toNat ++ rest).head? ≠ some '-' := by
      intro hcc
      have := hhd _ hcc
      simp [isDig] at this
    have hne2 : (natDec v.toNat ++ rest).head? ≠ some '+' := by
      intro hcc
      have := hhd _ hcc
      simp [isDig] at this
    rw [if_neg hne1, if_neg hne2,
      takeWhile_all_append (natDec_digits _), takeWhile_nil_of_head hrest]
    simp [digsVal_natDec, natDec_ne_nil]
    omega

theorem parseI64_intDec (v : Int) (sp rest : Chars)
    (hv : -(2 ^ 63) ≤ v ∧ v < 2 ^ 63)
    (hsp : ∀ c ∈ sp, goIsSpace c = true)
    (hrest : ∀ c, rest.head? = some c → isDig c = false) :
    parseI64 (sp ++ (intDec v ++ rest)) = some v := by
  unfold parseI64
  rw [parseIntRaw_intDec v sp rest hsp hrest]
  simp only [if_pos hv]

theorem parseI32_intDec (v : Int) (sp rest : Chars)
    (hv : -(2 ^ 31) ≤ v ∧ v < 2 ^ 31)
    (hsp : ∀ c ∈ sp, goIsSpace c = true)
    (hrest : ∀ c, rest.head? = some c → isDig c = false) :
    parseI32 (sp ++ (intDec v ++ rest)) = some v := by
  unfold parseI32
  rw [parseIntRaw_intDec v sp rest hsp hrest]
  simp only [if_pos hv]

theorem hexVal_hexDigChar {n : Nat} (h : n < 16) : hexVal (hexDigChar n) = some n := by
  interval_cases n <;> decide

/-- Hex decoding inverts hex encoding for byte lists. -/
theorem hexParseAll_hexEnc (bs : List Nat) (h : ∀ b ∈ bs, b < 256) :
    hexParseAll (hexEnc bs) = some bs := by
  induction bs with
  | nil => rfl
  | cons b bs ih =>
    have hb : b < 256 := h b (by simp)
    have h1 : b / 16 < 16 := by omega
    have h2 : b % 16 < 16 := by omega
    have hstep : hexEnc (b :: bs) = hexDigChar (b / 16) :: hexDigChar (b % 16) :: hexEnc bs := by
      simp [hexEnc, hexByte]
    rw [hstep]
    simp only [hexParseAll]
    rw [hexVal_hexDigChar h1, hexVal_hexDigChar h2, ih fun c hc => h c (by simp [hc])]
    have hbb : b / 16 * 16 + b % 16 = b := by omega
    simp [hbb]


/-! ### The asset-code renderer and scanner (src stx, part_000) -/

/-- `renderByte` (part_000:42): a printable non-backslash byte renders as
itself, backslash doubles, anything else becomes a lowercase
hex escape. -/
def renderByte (b : Nat) : Chars :=
  if b ≤ 32 ∨ 127 ≤ b then '\\' :: 'x' :: hexByte b
  else if b = 92 then ['\\', '\\']
  else [Char.ofNat b]

/-- Drop the trailing run of zero bytes (the loop of part_000:52-54). -/
def dropTrailZeros (bs : List Nat) : List Nat :=
  (bs.reverse.dropWhile (fun b => b = 0)).reverse

/-- `renderCode` (part_000:51): drop trailing zero bytes and render each
remaining byte. -/
def renderCode (bs : List Nat) : Chars :=
  (dropTrailZeros bs).flatMap renderByte

/-- The errors `scanCode` can produce.  `invalidChar` is the
`StrKeyError("Invalid character in AssetCode")` the loop constructs;
`tooLong` is `StrKeyError("AssetCode too long")`; `readEOF` and `hexBad`
model raw reader/`Fscanf` errors returned from the escape handling. -/
inductive CodeErr where
  | invalidChar
  | tooLong
  | readEOF
  | hexBad
  deriving DecidableEq, Repr

/-- Result of the main loop of `scanCode`: either a returned error, or a
break/exhaustion carrying the stored bytes, the unconsumed input, and the
value of the `err` variable at loop exit (which the source then
overwrites with the trailing read, so it is dead). -/
inductive BodyRes where
  | err (e : CodeErr)
  | brk (bytes : List Nat) (rest : Chars) (pend : Option CodeErr)
  deriving DecidableEq, Repr

/-- Prepend a stored byte to a loop result. -/
def BodyRes.consByte (b : Nat) : BodyRes → BodyRes
  | .err e => .err e
  | .brk bytes rest pend => .brk (b :: bytes) rest pend

/-- Model of `fmt.Fscanf(ss, "%02x", ...)`: skip non-newline spaces
(a newline is an error in `Fscanf` mode), then read one or two hex
digits. -/
def fscanHex2 (inp : Chars) : Except CodeErr (Nat × Chars) :=
  let sk := inp.dropWhile (fun c => goIsSpace c && c ≠ '\n')
  match sk with
  | [] => .error .readEOF
  | c1 :: r1 =>
    if c1 = '\n' then .error .hexBad
    else
      match hexVal c1 with
      | none => .error .hexBad
      | some h1 =>
        match r1 with
        | [] => .ok (h1, [])
        | c2 :: r2 =>
          match hexVal c2 with
          | none => .ok (h1, r1)
          | some h2 => .ok (h1 * 16 + h2, r2)

/-- The main loop of `scanCode` (part_000:75-96): read up to `slots`
runes; EOF or whitespace breaks (consuming the rune); a rune outside
`(0x20,0x7f)` sets the invalid-character error and breaks; a backslash
escape stores the escaped byte (`\xHH` hex, otherwise the literal rune
truncated to a byte). -/
def scanBody (slots : Nat) (inp : Chars) : BodyRes :=
  match slots, inp with
  | 0, rest => .brk [] rest none
  | _ + 1, [] => .brk [] [] none
  | n + 1, c :: rest =>
    if goIsSpace c then .brk [] rest none
    else if c.toNat ≤ 32 ∨ 127 ≤ c.toNat then .brk [] rest (some .invalidChar)
    else if c = '\\' then
      match rest with
      | [] => .err .readEOF
      | d :: rest2 =>
        if d = 'x' then
          match fscanHex2 rest2 with
          | .ok (b, rest3) => (scanBody n rest3).consByte b
          | .error e => .err e
        else (scanBody n rest2).consByte (d.toNat % 256)
    else (scanBody n rest).consByte c.toNat

/-- `scanCode` (part_000:64): skip leading whitespace, run the main
loop, zero-pad the remaining buffer, then read one more rune: EOF or
whitespace means success, anything else is the too-long error.  The
`err` value a break left behind is overwritten by that trailing read,
exactly as in the source. -/
def scanCode (n : Nat) (input : Chars) : Except CodeErr (List Nat) :=
  match scanBody n (input.dropWhile goIsSpace) with
  | .err e => .error e
  | .brk bytes rest _pend =>
    match rest with
    | [] => .ok (bytes ++ List.replicate (n - bytes.length) 0)
    | c :: _ =>
      if goIsSpace c then .ok (bytes ++ List.replicate (n - bytes.length) 0)
      else .error .tooLong

instance {e a : Type} [DecidableEq e] [DecidableEq a] : DecidableEq (Except e a) :=
  fun x y =>
    match x, y with
    | .ok u, .ok v =>
      if h : u = v then .isTrue (by rw [h]) else .isFalse (by simp [h])
    | .error u, .error v =>
      if h : u = v then .isTrue (by rw [h]) else .isFalse (by simp [h])
    | .ok _, .error _ => .isFalse (by simp)
    | .error _, .ok _ => .isFalse (by simp)

example : scanCode 4 ('a' :: 'b' :: []) = .ok [97, 98, 0, 0] := by decide
example : scanCode 4 ('a' :: 'b' :: ' ' :: []) = .ok [97, 98, 0, 0] := by decide
example : scanCode 4 ('a' :: ' ' :: 'b' :: []) = .error .tooLong := by decide
example : scanCode 2 ('a' :: 'b' :: 'c' :: []) = .error .tooLong := by decide
example : scanCode 2 ('a' :: 'b' :: ' ' :: 'c' :: []) = .ok [97, 98] := by decide
example : scanCode 4 ('a' :: '\\' :: 'x' :: '0' :: '7' :: []) = .ok [97, 7, 0, 0] := by decide

/-! ### The scaled-integer renderer (src stcdetail, part_001) -/

/-- The `exp10` table (part_001:86-94): `exp10[e] = 10^e` for `e < 20`;
the Go array access panics beyond 19, so theorems carry `e < 20`. -/
def exp10 (e : Nat) : Nat := 10 ^ e

/-- Go `%03d`: decimal digits zero-padded on the left to width 3. -/
def pad3 (n : Nat) : Chars :=
  List.replicate (3 - (natDec n).length) '0' ++ natDec n

/-- Go `%0*d`: decimal digits zero-padded on the left to width `w`. -/
def padTo (w : Nat) (n : Nat) : Chars :=
  List.replicate (w - (natDec n).length) '0' ++ natDec n

/-- Strip the trailing run of `'0'` characters (Go
`strings.TrimRight(s, "0")`). -/
def trimRightZeros (cs : Chars) : Chars :=
  (cs.reverse.dropWhile (fun c => c = '0')).reverse

/-- The comma-grouping loop of `ScaleFmt` (part_001:105-114): prepend a
comma when the accumulator is nonempty, then the next base-1000 group
(`%d` for the leading group, `%03d` otherwise). -/
def scaleLoopGo : Nat → Nat → Chars → Chars
  | 0, _, out => out
  | fuel + 1, tmag, out =>
    let out1 := if out ≠ [] then ',' :: out else out
    if tmag < 1000 then natDec tmag ++ out1
    else scaleLoopGo fuel (tmag / 1000) (pad3 (tmag % 1000) ++ out1)

def scaleLoop (tmag : Nat) (out : Chars) : Chars := scaleLoopGo (tmag + 1) tmag out

theorem scaleLoopGo_fuel (f1 : Nat) : ∀ f2 tmag out, tmag < f1 → tmag < f2 →
    scaleLoopGo f1 tmag out = scaleLoopGo f2 tmag out := by
  induction f1 using Nat.strong_induction_on with
  | _ f1 ih =>
    intro f2 tmag out h1 h2
    match f1, f2 with
    | fa + 1, fb + 1 =>
      simp only [scaleLoopGo]
      by_cases hk : tmag < 1000
      · simp [hk]
      · simp only [hk, if_false]
        rw [ih fa (by omega) fb (tmag / 1000) _ (by omega) (by omega)]

/-- The recursion equation of the grouping loop. -/
theorem scaleLoop_eq (tmag : Nat) (out : Chars) : scaleLoop tmag out =
    (let out1 := if out ≠ [] then ',' :: out else out
     if tmag < 1000 then natDec tmag ++ out1
     else scaleLoop (tmag / 1000) (pad3 (tmag % 1000) ++ out1)) := by
  show scaleLoopGo (tmag + 1) tmag out = _
  by_cases hk : tmag < 1000
  · simp [scaleLoopGo, hk]
  · simp only [scaleLoopGo, hk, if_false]
    exact scaleLoopGo_fuel tmag (tmag / 1000 + 1) (tmag / 1000) _ (by omega) (by omega)

/-- `ScaleFmt` (part_001:97): print `val` divided by `10^exp` with
thousands separators, a trimmed fractional part, and the `e`-exponent
suffix.  `uint64(-val)` is the exact magnitude (also at `int64` min), so
the magnitude is `natAbs`. -/
def ScaleFmt (val : Int) (exp : Nat) : Chars :=
  let mag : Nat := val.natAbs
  let unit := exp10 exp
  let ip := scaleLoop (mag / unit) []
  let signed := if val < 0 then '-' :: ip else ip
  let frac := mag % unit
  let withfrac :=
    if frac > 0 then signed ++ trimRightZeros ('.' :: padTo exp frac) else signed
  withfrac ++ 'e' :: natDec exp

example : ScaleFmt 123456789 7 = ('1' :: '2' :: '.' :: '3' :: '4' :: '5' :: '6' :: '7' :: '8' :: '9' :: 'e' :: '7' :: []) := by decide

/-- The date comment of `Marshal_TimePoint` (part_001:126-132).
Modelled from the spec: the formatted calendar date comes from Go
`time.Unix(..).Format(time.UnixDate)`, an external library; the model
stands in an executable date token (the decimal seconds value), keeping
the spec shape: zero or negative (as `int64`) yields the empty string,
otherwise a parenthesised comment. -/
def dateComment (ut : Nat) : Chars :=
  if ut = 0 ∨ 2 ^ 63 ≤ ut then []
  else ' ' :: '(' :: (natDec ut ++ [')'])

/-! ### Spec-side formulation of the scaled renderer (spec section 4.2) -/

theorem pad3_ne_nil (n : Nat) : pad3 n ≠ [] := by
  simp only [pad3]
  intro h
  rcases List.append_eq_nil.mp h with ⟨_, h2⟩
  exact natDec_ne_nil n h2

/-- Render base-1000 groups given little-endian: the most significant
group unpadded, every later group zero-padded to 3 digits,
comma-separated — the spec's "`,` every 3 digits". -/
def groupDigsLE : Nat → List Nat → Chars
  | d, [] => natDec d
  | d, e :: es => groupDigsLE e es ++ ',' :: pad3 d

/-- The spec's thousands grouping of a natural number, via its base-1000
digits. -/
def groupSpec (n : Nat) : Chars :=
  match Nat.digits 1000 n with
  | [] => ['0']
  | d :: ds => groupDigsLE d ds

theorem scaleLoop_out (t : Nat) : ∀ out : Chars, out ≠ [] →
    scaleLoop t out = scaleLoop t [] ++ ',' :: out := by
  induction t using Nat.strong_induction_on with
  | _ t ih =>
    intro out hout
    rw [scaleLoop_eq t out, scaleLoop_eq t []]
    by_cases hk : t < 1000
    · simp [hk, hout]
    · simp only [hk, if_false, ne_eq, not_true_eq_false, reduceIte,
        List.append_nil, not_false_eq_true, hout]
      rw [ih (t / 1000) (by omega) _ (by simp [pad3_ne_nil]),
        ih (t / 1000) (by omega) (pad3 (t % 1000)) (pad3_ne_nil _)]
      simp

/-- The grouping loop of `ScaleFmt` computes the spec's base-1000
grouping. -/
theorem scaleLoop_groupSpec (n : Nat) : scaleLoop n [] = groupSpec n := by
  induction n using Nat.strong_induction_on with
  | _ n ih =>
    by_cases hk : n < 1000
    · rw [scaleLoop_eq]
      simp only [hk, if_true, ne_eq, not_true_eq_false, reduceIte, List.append_nil]
      by_cases h0 : n = 0
      · subst h0
        simp [groupSpec, Nat.digits]
        decide
      · rw [groupSpec, Nat.digits_def' (by omega : 1 < 1000) (by omega : 0 < n)]
        have : n / 1000 = 0 := by omega
        rw [this]
        simp only [Nat.digits_zero]
        rw [groupDigsLE]
        congr 1
        omega
    · rw [scaleLoop_eq]
      simp only [hk, if_false, ne_eq, not_true_eq_false, reduceIte, List.append_nil]
      rw [scaleLoop_out _ _ (pad3_ne_nil _), ih (n / 1000) (by omega)]
      have hds : Nat.digits 1000 n = n % 1000 :: Nat.digits 1000 (n / 1000) :=
        Nat.digits_def' (by omega : 1 < 1000) (by omega : 0 < n)
      have hne : Nat.digits 1000 (n / 1000) ≠ [] := by
        rw [Nat.digits_ne_nil_iff_ne_zero]
        omega
      cases he : Nat.digits 1000 (n / 1000) with
      | nil => exact absurd he hne
      | cons e es =>
        rw [he] at hds
        simp only [groupSpec, hds, he, groupDigsLE]

theorem digsVal_all_zero {l : Chars} (h : ∀ c ∈ l, c = '0') : digsVal l = 0 := by
  induction l with
  | nil => rfl
  | cons c cs ih =>
    have hc : c = '0' := h c (by simp)
    simp only [digsVal, List.foldl_cons] at *
    rw [hc]
    have : (0 : Nat) * 10 + ('0'.toNat - 48) = 0 := by decide
    rw [this]
    exact ih fun d hd => h d (by simp [hd])

theorem natDec_has_nonzero {n : Nat} (h : n ≠ 0) : ∃ c ∈ natDec n, c ≠ '0' := by
  by_contra hall
  push_neg at hall
  have : digsVal (natDec n) = 0 := digsVal_all_zero hall
  rw [digsVal_natDec] at this
  exact h this

theorem dropWhile_ne_nil_of_exists {p : Char → Bool} {l : Chars}
    (h : ∃ c ∈ l, p c = false) : l.dropWhile p ≠ [] := by
  induction l with
  | nil => simp at h
  | cons c cs ih =>
    rcases h with ⟨d, hd, hdp⟩
    rw [List.dropWhile_cons]
    rcases List.mem_cons.mp hd with rfl | hmem
    · simp [hdp]
    · by_cases hc : p c = true
      · simp only [hc, if_true]
        exact ih ⟨d, hmem, hdp⟩
      · simp [hc]

theorem dropWhile_append_of_ne_nil {p : Char → Bool} {l r : Chars}
    (h : l.dropWhile p ≠ []) : (l ++ r).dropWhile p = l.dropWhile p ++ r := by
  induction l with
  | nil => simp at h
  | cons c cs ih =>
    rw [List.cons_append, List.dropWhile_cons, List.dropWhile_cons] at *
    by_cases hc : p c = true
    · simp only [hc, if_true] at *
      exact ih h
    · simp only [Bool.not_eq_true] at hc
      simp [hc]

/-- Trimming trailing zeros of `"." ++ digits` keeps the dot when the
padded value is nonzero. -/
theorem trimRightZeros_dot {w f : Nat} (hf : f ≠ 0) :
    trimRightZeros ('.' :: padTo w f) = '.' :: trimRightZeros (padTo w f) := by
  unfold trimRightZeros
  have hnz : ∃ c ∈ (padTo w f).reverse, (fun c => c = '0' : Char → Bool) c = false := by
    rcases natDec_has_nonzero hf with ⟨c, hc, hcne⟩
    refine ⟨c, ?_, by simp [hcne]⟩
    simp only [List.mem_reverse, padTo, List.mem_append]
    right
    exact hc
  have hd : ('.' :: padTo w f).reverse = (padTo w f).reverse ++ ['.'] := by
    simp
  rw [hd, dropWhile_append_of_ne_nil (dropWhile_ne_nil_of_exists hnz)]
  simp

/-- The spec's `renderScaled` (section 4.2), assembled exactly as the
spec words it: split into `value / 10^exponent` and
`value % 10^exponent`, group the integer part, append the nonzero
fractional part zero-padded to `exponent` digits with trailing zeros
stripped, prefix the sign, append `e` plus the exponent. -/
def renderScaled (value : Int) (exponent : Nat) : Chars :=
  let mag := value.natAbs
  let ip := mag / 10 ^ exponent
  let fp := mag % 10 ^ exponent
  (if value < 0 then ['-'] else []) ++ groupSpec ip
    ++ (if fp ≠ 0 then '.' :: trimRightZeros (padTo exponent fp) else [])
    ++ 'e' :: natDec exponent

/-- `ScaleFmt` agrees with the spec-side `renderScaled` everywhere. -/
theorem ScaleFmt_eq_renderScaled (v : Int) (e : Nat) :
    ScaleFmt v e = renderScaled v e := by
  unfold ScaleFmt renderScaled exp10
  by_cases hf : v.natAbs % 10 ^ e = 0
  · simp only [hf, gt_iff_lt, Nat.lt_irrefl, reduceIte, ne_eq, not_true_eq_false,
      List.append_nil, scaleLoop_groupSpec]
    by_cases hs : v < 0 <;> simp [hs]
  · have hfpos : 0 < v.natAbs % 10 ^ e := Nat.pos_of_ne_zero hf
    simp only [hfpos, gt_iff_lt, reduceIte, ne_eq, hf, not_false_eq_true,
      scaleLoop_groupSpec, trimRightZeros_dot hf]
    by_cases hs : v < 0 <;> simp [hs]

/-- String wrapper for readable concrete statements. -/
def ScaleFmtS (v : Int) (e : Nat) : String := String.mk (ScaleFmt v e)

/-! ### General characterization of `scanCode` -/

/-- A literal code character: printable ASCII in `[0x21,0x7e]`, not a
backslash.  Exactly the runes the scan loop stores unescaped. -/
def codeLit (c : Char) : Bool :=
  (33 ≤ c.toNat && c.toNat ≤ 126) && c ≠ '\\'

theorem codeLit_not_space {c : Char} (h : codeLit c = true) : goIsSpace c = false := by
  simp only [codeLit, Bool.and_eq_true, decide_eq_true_eq] at h
  simp only [goIsSpace, List.mem_cons, List.not_mem_nil, or_false, decide_eq_false_iff_not]
  omega

/-- What the source's trailing read decides: EOF or whitespace is
success, anything else is the too-long error. -/
def trailCheck (rest : Chars) : Bool :=
  match rest with
  | [] => true
  | c :: _ => goIsSpace c

theorem foldr_consByte_brk (pre : Chars) (bytes : List Nat) (rest : Chars)
    (p : Option CodeErr) :
    pre.foldr (fun (c : Char) (r : BodyRes) => r.consByte c.toNat) (.brk bytes rest p)
      = .brk (pre.map Char.toNat ++ bytes) rest p := by
  induction pre with
  | nil => rfl
  | cons c cs ih =>
    rw [List.foldr_cons, ih]
    rfl

theorem foldr_consByte_err (pre : Chars) (e : CodeErr) :
    pre.foldr (fun (c : Char) (r : BodyRes) => r.consByte c.toNat) (.err e) = .err e := by
  induction pre with
  | nil => rfl
  | cons c cs ih =>
    rw [List.foldr_cons, ih]
    rfl

theorem foldr_consByteNat_brk (bs : List Nat) (bytes : List Nat) (rest : Chars)
    (p : Option CodeErr) :
    bs.foldr (fun (b : Nat) (r : BodyRes) => r.consByte b) (.brk bytes rest p)
      = .brk (bs ++ bytes) rest p := by
  induction bs with
  | nil => rfl
  | cons b bt ih =>
    rw [List.foldr_cons, ih]
    rfl

/-- The scan loop consumes a literal-character prefix byte by byte. -/
theorem scanBody_lit_append (pre : Chars) : ∀ n rest,
    (∀ c ∈ pre, codeLit c = true) → pre.length ≤ n →
    scanBody n (pre ++ rest)
      = pre.foldr (fun (c : Char) (r : BodyRes) => r.consByte c.toNat)
          (scanBody (n - pre.length) rest) := by
  induction pre with
  | nil => simp
  | cons c cs ih =>
    intro n rest hlit hlen
    have hc : codeLit c = true := hlit c (by simp)
    have hcr : (33 ≤ c.toNat ∧ c.toNat ≤ 126) ∧ c ≠ '\\' := by
      simpa [codeLit] using hc
    match n with
    | m + 1 =>
      rw [List.cons_append]
      show scanBody (m + 1) (c :: (cs ++ rest)) = _
      have hnr : ¬(c.toNat ≤ 32 ∨ 127 ≤ c.toNat) := by omega
      simp only [scanBody, codeLit_not_space hc, Bool.false_eq_true, if_false,
        if_neg hnr, if_neg hcr.2]
      rw [ih m rest (fun d hd => hlit d (by simp [hd])) (by simpa using hlen)]
      have hlen2 : m + 1 - (c :: cs).length = m - cs.length := by
        simp only [List.length_cons]
        omega
      rw [List.foldr_cons, hlen2]

theorem dropWhile_lit_append {pre rest : Chars} (hne : pre ≠ [])
    (hlit : ∀ c ∈ pre, codeLit c = true) :
    (pre ++ rest).dropWhile goIsSpace = pre ++ rest := by
  cases pre with
  | nil => exact absurd rfl hne
  | cons c cs =>
    rw [List.cons_append]
    exact dropWhile_cons_false (codeLit_not_space (hlit c (by simp)))

theorem scanBody_zero_or_nil (k : Nat) (rest : Chars) (h : k = 0 ∨ rest = []) :
    scanBody k rest = .brk [] rest none := by
  rcases h with rfl | rfl
  · rw [scanBody]
  · match k with
    | 0 => rw [scanBody]
    | m + 1 => rw [scanBody]

/-- Full input of literal characters that fits: stored and zero-padded. -/
theorem scanCode_all_lit (n : Nat) (pre : Chars)
    (hlit : ∀ c ∈ pre, codeLit c = true) (hlen : pre.length ≤ n) :
    scanCode n pre = .ok (pre.map Char.toNat
      ++ List.replicate (n - pre.length) 0) := by
  have hdw : pre.dropWhile goIsSpace = pre := by
    cases pre with
    | nil => rfl
    | cons c cs => exact dropWhile_cons_false (codeLit_not_space (hlit c (by simp)))
  have hsb : scanBody n pre = .brk (pre.map Char.toNat) [] none := by
    have hstep := scanBody_lit_append pre n [] hlit hlen
    rw [List.append_nil] at hstep
    rw [hstep, scanBody_zero_or_nil _ [] (Or.inr rfl), foldr_consByte_brk]
    simp
  unfold scanCode
  simp only [hdw, hsb, List.length_map]

/-- Whitespace before the buffer is full terminates the scan with the
space consumed; the outcome is then decided by the single following
rune. -/
theorem scanCode_space_term (n : Nat) (pre : Chars) (c : Char) (post : Chars)
    (hne : pre ≠ [])
    (hlit : ∀ d ∈ pre, codeLit d = true) (hlen : pre.length < n)
    (hsp : goIsSpace c = true) :
    scanCode n (pre ++ c :: post)
      = (if trailCheck post then
          .ok (pre.map Char.toNat ++ List.replicate (n - pre.length) 0)
        else .error .tooLong) := by
  unfold scanCode
  rw [dropWhile_lit_append hne hlit,
    scanBody_lit_append pre n (c :: post) hlit (by omega)]
  have hk : n - pre.length = (n - pre.length - 1) + 1 := by omega
  rw [hk]
  simp only [scanBody, hsp, if_true, foldr_consByte_brk, List.append_nil]
  rw [← hk]
  cases post with
  | nil => simp [trailCheck]
  | cons d ds =>
    simp only [trailCheck]
    by_cases hd : goIsSpace d <;> simp [hd]

/-- A full buffer: the outcome is decided by the single following rune,
whether or not it is followed by more input. -/
theorem scanCode_full (n : Nat) (pre : Chars) (post : Chars)
    (hne : pre ≠ [])
    (hlit : ∀ d ∈ pre, codeLit d = true) (hlen : pre.length = n) :
    scanCode n (pre ++ post)
      = (if trailCheck post then .ok (pre.map Char.toNat)
        else .error .tooLong) := by
  unfold scanCode
  rw [dropWhile_lit_append hne hlit,
    scanBody_lit_append pre n post hlit (by omega)]
  rw [scanBody_zero_or_nil _ post (Or.inl (by omega)), foldr_consByte_brk]
  simp only [List.append_nil]
  have hz : n - pre.length = 0 := by omega
  cases post with
  | nil => simp [trailCheck, hz]
  | cons d ds =>
    simp only [trailCheck]
    by_cases hd : goIsSpace d <;> simp [hd, hz]

/-- An out-of-range unescaped rune before the buffer is full: the loop
constructs the invalid-character error but breaks, and the error is
overwritten by the trailing read — the result is success or too-long,
never the invalid-character error. -/
theorem scanCode_invalid_rune (n : Nat) (pre : Chars) (c : Char) (post : Chars)
    (hne : pre ≠ [])
    (hlit : ∀ d ∈ pre, codeLit d = true) (hlen : pre.length < n)
    (hnsp : goIsSpace c = false) (hbad : c.toNat ≤ 32 ∨ 127 ≤ c.toNat) :
    scanCode n (pre ++ c :: post)
      = (if trailCheck post then
          .ok (pre.map Char.toNat ++ List.replicate (n - pre.length) 0)
        else .error .tooLong) := by
  unfold scanCode
  rw [dropWhile_lit_append hne hlit,
    scanBody_lit_append pre n (c :: post) hlit (by omega)]
  have hk : n - pre.length = (n - pre.length - 1) + 1 := by omega
  rw [hk]
  simp only [scanBody, hnsp, Bool.false_eq_true, if_false,
    if_pos (show c.toNat ≤ 32 ∨ 127 ≤ c.toNat from hbad),
    foldr_consByte_brk, List.append_nil]
  rw [← hk]
  cases post with
  | nil => simp [trailCheck]
  | cons d ds =>
    simp only [trailCheck]
    by_cases hd : goIsSpace d <;> simp [hd]

/-! ### Round trip of `renderCode` / `scanCode` -/

theorem toNat_ofNat_small {b : Nat} (h : b < 55296) : (Char.ofNat b).toNat = b := by
  have hv : b.isValidChar := Or.inl h
  rw [Char.ofNat, dif_pos hv]
  rfl

theorem hexDigChar_range {n : Nat} (h : n < 16) :
    48 ≤ (hexDigChar n).toNat ∧ (hexDigChar n).toNat ≤ 102 := by
  interval_cases n <;> decide

theorem hexDigChar_not_space {n : Nat} (h : n < 16) :
    goIsSpace (hexDigChar n) = false := by
  interval_cases n <;> decide

theorem hexDigChar_ne_nl {n : Nat} (h : n < 16) : hexDigChar n ≠ '\n' := by
  interval_cases n <;> decide

/-- The `%02x` scan reads back exactly the two digits `hexByte`
produced. -/
theorem fscanHex2_hexByte (b : Nat) (hb : b < 256) (rest : Chars) :
    fscanHex2 (hexByte b ++ rest) = .ok (b, rest) := by
  have h1 : b / 16 < 16 := by omega
  have h2 : b % 16 < 16 := by omega
  unfold fscanHex2 hexByte
  have hds : ((hexDigChar (b / 16) :: hexDigChar (b % 16) :: []) ++ rest).dropWhile
      (fun c => goIsSpace c && c ≠ '\n') = hexDigChar (b / 16) :: (hexDigChar (b % 16) :: rest) := by
    rw [List.cons_append, List.dropWhile_cons]
    simp [hexDigChar_not_space h1]
  simp only [List.cons_append, List.nil_append] at hds ⊢
  rw [hds]
  simp only [if_neg (hexDigChar_ne_nl h1), hexVal_hexDigChar h1, hexVal_hexDigChar h2]
  have : b / 16 * 16 + b % 16 = b := by omega
  rw [this]

theorem scanBody_lit_cons (m : Nat) (c : Char) (tl : Chars)
    (h1 : goIsSpace c = false) (h2 : ¬(c.toNat ≤ 32 ∨ 127 ≤ c.toNat))
    (h3 : ¬(c = '\\')) :
    scanBody (m + 1) (c :: tl) = (scanBody m tl).consByte c.toNat := by
  simp only [scanBody, h1, Bool.false_eq_true, if_false, if_neg h2, if_neg h3]

theorem scanBody_backslash_lit (m : Nat) (d : Char) (tl : Chars) (hd : ¬(d = 'x')) :
    scanBody (m + 1) ('\\' :: d :: tl) = (scanBody m tl).consByte (d.toNat % 256) := by
  simp only [scanBody, show goIsSpace '\\' = false by decide, Bool.false_eq_true, if_false,
    if_neg (by decide : ¬('\\'.toNat ≤ 32 ∨ 127 ≤ '\\'.toNat)), if_pos rfl, if_true,
    if_neg hd]

theorem scanBody_escape_hex (m b : Nat) (tl rest3 : Chars)
    (hfs : fscanHex2 tl = .ok (b, rest3)) :
    scanBody (m + 1) ('\\' :: 'x' :: tl) = (scanBody m rest3).consByte b := by
  simp only [scanBody, show goIsSpace '\\' = false by decide, Bool.false_eq_true, if_false,
    if_neg (by decide : ¬('\\'.toNat ≤ 32 ∨ 127 ≤ '\\'.toNat)), if_pos rfl, if_true, hfs]

/-- The scan loop reads back each byte from its rendering. -/
theorem scanBody_renderBytes (pbs : List Nat) : ∀ n rest,
    (∀ b ∈ pbs, b < 256) → pbs.length ≤ n →
    scanBody n (pbs.flatMap renderByte ++ rest)
      = pbs.foldr (fun (b : Nat) (r : BodyRes) => r.consByte b)
          (scanBody (n - pbs.length) rest) := by
  induction pbs with
  | nil => simp
  | cons b bs ih =>
    intro n rest hlt hlen
    have hb : b < 256 := hlt b (by simp)
    match n with
    | m + 1 =>
      have hstep : (b :: bs).flatMap renderByte ++ rest
          = renderByte b ++ (bs.flatMap renderByte ++ rest) := by
        simp [List.flatMap_cons]
      rw [hstep]
      have htail : scanBody m (bs.flatMap renderByte ++ rest)
          = bs.foldr (fun (b : Nat) (r : BodyRes) => r.consByte b)
              (scanBody (m - bs.length) rest) :=
        ih m rest (fun d hd => hlt d (by simp [hd])) (by simpa using hlen)
      have hlen2 : m + 1 - (b :: bs).length = m - bs.length := by
        simp only [List.length_cons]
        omega
      rw [hlen2, List.foldr_cons, ← htail]
      by_cases hesc : b ≤ 32 ∨ 127 ≤ b
      · have hrb : renderByte b = '\\' :: 'x' :: hexByte b := by
          unfold renderByte
          rw [if_pos hesc]
        rw [hrb, List.cons_append, List.cons_append]
        exact scanBody_escape_hex m b _ _ (fscanHex2_hexByte b hb _)
      · by_cases hbsl : b = 92
        · have hrb : renderByte b = ['\\', '\\'] := by
            unfold renderByte
            rw [if_neg hesc, if_pos hbsl]
          rw [hrb]
          show scanBody (m + 1) ('\\' :: '\\' :: (bs.flatMap renderByte ++ rest)) = _
          rw [scanBody_backslash_lit m _ _ (by decide)]
          rw [show '\\'.toNat % 256 = 92 from by decide, hbsl]
        · have hrange : 33 ≤ b ∧ b ≤ 126 := by omega
          have htn : (Char.ofNat b).toNat = b := toNat_ofNat_small (by omega)
          have hrb : renderByte b = [Char.ofNat b] := by
            unfold renderByte
            rw [if_neg hesc, if_neg hbsl]
          rw [hrb]
          have hnsp : goIsSpace (Char.ofNat b) = false := by
            simp only [goIsSpace, htn, List.mem_cons, List.not_mem_nil, or_false,
              decide_eq_false_iff_not]
            omega
          have hnx : ¬(Char.ofNat b = '\\') := by
            intro hcc
            have hcc2 := congrArg Char.toNat hcc
            rw [htn] at hcc2
            simp at hcc2
            omega
          show scanBody (m + 1) (Char.ofNat b :: (bs.flatMap renderByte ++ rest)) = _
          rw [scanBody_lit_cons m _ _ hnsp (by rw [htn]; omega) hnx, htn]

theorem flatMap_renderByte_not_space (pbs : List Nat) (h : ∀ b ∈ pbs, b < 256) :
    ∀ c ∈ pbs.flatMap renderByte, goIsSpace c = false := by
  intro c hc
  simp only [List.mem_flatMap] at hc
  rcases hc with ⟨b, hb, hcb⟩
  have hblt : b < 256 := h b hb
  unfold renderByte at hcb
  by_cases hesc : b ≤ 32 ∨ 127 ≤ b
  · simp only [hesc, if_true, List.mem_cons] at hcb
    rcases hcb with rfl | rfl | hcb
    · decide
    · decide
    · have h1 : b / 16 < 16 := by omega
      have h2 : b % 16 < 16 := by omega
      simp only [hexByte, List.mem_cons, List.not_mem_nil, or_false] at hcb
      rcases hcb with rfl | rfl
      · exact hexDigChar_not_space h1
      · exact hexDigChar_not_space h2
  · by_cases hbsl : b = 92
    · simp only [renderByte, hesc, if_false, hbsl, if_pos rfl, if_true] at hcb
      have hc2 : c = '\\' := by simpa using hcb
      subst hc2
      decide
    · simp only [hesc, if_false, if_neg hbsl, List.mem_cons, List.not_mem_nil,
        or_false] at hcb
      subst hcb
      have htn : (Char.ofNat b).toNat = b := toNat_ofNat_small (by omega)
      simp only [goIsSpace, htn, List.mem_cons, List.not_mem_nil, or_false,
        decide_eq_false_iff_not]
      omega

theorem dropTrailZeros_spec (bs : List Nat) :
    dropTrailZeros bs ++ List.replicate (bs.length - (dropTrailZeros bs).length) 0 = bs := by
  unfold dropTrailZeros
  have hsplit := List.takeWhile_append_dropWhile
    (p := fun b : Nat => b = 0) (l := bs.reverse)
  have htw : bs.reverse.takeWhile (fun b : Nat => b = 0)
      = List.replicate (bs.reverse.takeWhile (fun b : Nat => b = 0)).length 0 := by
    apply List.eq_replicate_of_mem
    intro b hb
    have := List.mem_takeWhile_imp hb
    simpa using this
  have hlen : (bs.reverse.dropWhile (fun b : Nat => b = 0)).length ≤ bs.length := by
    have h1 : (bs.reverse.dropWhile (fun b : Nat => b = 0)).length ≤ bs.reverse.length :=
      (List.dropWhile_sublist _).length_le
    simpa using h1
  conv_rhs => rw [← List.reverse_reverse bs, ← hsplit]
  rw [List.reverse_append, htw, List.reverse_replicate]
  congr 2
  have := congrArg List.length hsplit
  simp only [List.length_append, List.length_reverse] at this
  simp only [List.length_reverse]
  omega

theorem dropTrailZeros_length_le (bs : List Nat) :
    (dropTrailZeros bs).length ≤ bs.length := by
  unfold dropTrailZeros
  have h1 : (bs.reverse.dropWhile (fun b : Nat => b = 0)).length ≤ bs.reverse.length :=
    (List.dropWhile_sublist _).length_le
  simpa using h1

theorem dropTrailZeros_mem {bs : List Nat} {b : Nat} (h : b ∈ dropTrailZeros bs) :
    b ∈ bs := by
  unfold dropTrailZeros at h
  rw [List.mem_reverse] at h
  have := (List.dropWhile_sublist (l := bs.reverse) (p := fun b : Nat => b = 0)).mem h
  simpa using this

/-- `scanCode` inverts `renderCode` on every byte array that fits the
buffer: the trailing-zero run is re-established by zero padding. -/
theorem scanCode_renderCode (bs : List Nat) (sp : Chars)
    (hlt : ∀ b ∈ bs, b < 256) (hsp : ∀ c ∈ sp, goIsSpace c = true) :
    scanCode bs.length (sp ++ renderCode bs) = .ok bs := by
  unfold scanCode renderCode
  have hlt2 : ∀ b ∈ dropTrailZeros bs, b < 256 := fun b hb => hlt b (dropTrailZeros_mem hb)
  have hlen := dropTrailZeros_length_le bs
  have hdw : (sp ++ (dropTrailZeros bs).flatMap renderByte).dropWhile goIsSpace
      = (dropTrailZeros bs).flatMap renderByte := by
    rw [dropWhile_all_append hsp]
    cases hfm : (dropTrailZeros bs).flatMap renderByte with
    | nil => rfl
    | cons c cs =>
      apply dropWhile_cons_false
      apply flatMap_renderByte_not_space _ hlt2
      rw [hfm]
      simp
  rw [hdw]
  have hbody : scanBody bs.length ((dropTrailZeros bs).flatMap renderByte)
      = .brk (dropTrailZeros bs) [] none := by
    have hstep := scanBody_renderBytes (dropTrailZeros bs) bs.length [] hlt2 hlen
    rw [List.append_nil] at hstep
    rw [hstep, scanBody_zero_or_nil _ [] (Or.inr rfl), foldr_consByteNat_brk]
    simp
  rw [hbody]
  show Except.ok (dropTrailZeros bs
    ++ List.replicate (bs.length - (dropTrailZeros bs).length) 0) = Except.ok bs
  rw [dropTrailZeros_spec bs]

/-! ### The typed tree model

The XDR node kinds the txrep traversals dispatch on (spec section 3),
as a closed sum.  A struct is a chain of named fields (`fieldS`/`endS`),
matching goxdr's sequential `XdrRecurse`; `endS` carries the aggregate's
own end-of-marshal bookkeeping.  The goxdr/stx glue that is outside this
repository (field naming, element naming, scalar `Scan`/`String`
methods, the strkey address form) is modelled from the spec where noted.
-/

def ofStr (s : String) : Chars := s.toList

inductive Shape where
  | u32S
  | i64S
  | timeS
  | enumS (table : List (Int × Chars))
  | arrS (n : Nat)
  | codeS (n : Nat)
  | vecOS
  | acctS
  | ptrS (inner : Shape)
  | vecS (bound : Nat) (elem : Shape)
  | fieldS (fname : Chars) (s : Shape) (rest : Shape)
  | endS
  deriving DecidableEq, Repr

inductive Val where
  | u32V (v : Nat)
  | i64V (v : Int)
  | timeV (v : Nat)
  | enumV (v : Int)
  | arrV (bs : List Nat)
  | codeV (bs : List Nat)
  | vecOV (bs : List Nat)
  | acctV (ty : Nat) (key : List Nat)
  | ptrNilV
  | ptrSomeV (inner : Val)
  | vecV (elems : Val)
  | consV (hd : Val) (tl : Val)
  | nilV
  | fieldV (v : Val) (rest : Val)
  | endV
  deriving DecidableEq, Repr

/-- Length of a `consV`/`nilV` element chain. -/
def chainLen : Val → Nat
  | .consV _ t => chainLen t + 1
  | _ => 0

/-- goxdr `SetU32` on a vector: truncate or extend with zero values. -/
def resizeChain : Val → Nat → Val → Val
  | _, 0, _ => .nilV
  | .consV h t, n + 1, z => .consV h (resizeChain t n z)
  | _, n + 1, z => .consV z (resizeChain .nilV n z)

/-- The Go zero value of each shape (what allocation produces). -/
def zeroVal : Shape → Val
  | .u32S => .u32V 0
  | .i64S => .i64V 0
  | .timeS => .timeV 0
  | .enumS _ => .enumV 0
  | .arrS n => .arrV (List.replicate n 0)
  | .codeS n => .codeV (List.replicate n 0)
  | .vecOS => .vecOV []
  | .acctS => .acctV 0 (List.replicate 32 0)
  | .ptrS _ => .ptrNilV
  | .vecS _ _ => .vecV .nilV
  | .fieldS _ s rest => .fieldV (zeroVal s) (zeroVal rest)
  | .endS => .endV

/-! ### Names and keys -/

/-- Modelled from the spec (section 4.1): goxdr builds the nested field
name with a `.` separator, omitted at the root. -/
def childName (p f : Chars) : Chars := if p = [] then f else p ++ '.' :: f

/-- Modelled from the spec (sections 4.1, 9): the per-index element
sub-name; goxdr uses a bracketed numeric index. -/
def idxName (p : Chars) (i : Nat) : Chars := p ++ '[' :: (natDec i ++ [']'])

/-- `trackTypes.present` (part_001:46-48): `"." + "_inner"*(depth-1)
+ "_present"`. -/
def presentSuffix (d : Nat) : Chars :=
  '.' :: ((List.replicate (d - 1) (ofStr "_inner")).flatten ++ ofStr "_present")

/-- The legacy shim trigger (part_001:169-170, 365-366): a 32-byte
fixed opaque whose name ends in `tx.sourceAccountEd25519`. -/
def isShim (n : Nat) (name : Chars) : Bool :=
  n == 32 && (ofStr "tx.sourceAccountEd25519").isSuffixOf name

/-- The shim's shortened name (part_001:171, 367):
`name[:len(name)-20] + "sourceAccount"`. -/
def shimName (name : Chars) : Chars :=
  name.take (name.length - 20) ++ ofStr "sourceAccount"

/-! ### Modelled stx scalar forms -/

/-- Modelled from the spec (section 3, `AccountIdentifier`): the strkey
string form of a typed public key; an executable stand-in bijection —
`G` plus the hex key for the Ed25519 type. -/
def strKeyEnc (ty : Nat) (key : List Nat) : Chars :=
  (if ty = 0 then 'G' else 'M') :: hexEnc key

/-- Modelled from the spec: parsing the strkey form back; only the
`G`-prefixed Ed25519 form with a 32-byte key is a valid `AccountID`. -/
def strKeyParse (tok : Chars) : Option (Nat × List Nat) :=
  match tok with
  | c :: rest =>
    if c = 'G' then
      match hexParseAll rest with
      | some key => if key.length = 32 then some (0, key) else none
      | none => none
    else none
  | [] => none

/-- `xdrEnumNames`-backed rendering.  Modelled from the spec (section 3,
`EnumValue`): the symbol of the table entry, or the number when the
value has no symbol. -/
def enumStr (table : List (Int × Chars)) (v : Int) : Chars :=
  match table.find? (fun p => p.1 == v) with
  | some p => p.2
  | none => intDec v

/-- Modelled from the spec: the generated enum scanner reads a token and
matches it against the symbol table, otherwise parses it as a number. -/
def enumParse (table : List (Int × Chars)) (tok : Chars) : Option Int :=
  if tok = [] then none
  else
    match table.find? (fun p => p.2 == tok) with
    | some p => some p.1
    | none => parseI32 tok

/-- Modelled from the spec: the goxdr fixed-opaque scanner reads a hex
token of exactly the array's length. -/
def arrParse (n : Nat) (val : Chars) : Option (List Nat) :=
  match hexParseAll (tokenOf val) with
  | some bs => if bs.length = n then some bs else none
  | none => none

/-- Modelled from the spec (section 4.2 `scanOpaque`): the goxdr
variable-opaque scanner hex-decodes one token; an empty token is a read
error. -/
def vecOParse (val : Chars) : Option (List Nat) :=
  if tokenOf val = [] then none else hexParseAll (tokenOf val)

/-- `PrintVecOpaque` (part_001:143-148). -/
def PrintVecOpaque (bs : List Nat) : Chars :=
  if bs = [] then ofStr "0 bytes" else hexEnc bs

/-! ### The encoder (`txStringCtx.Marshal`, part_001:150-244, with the
default annotation callbacks installed by `XdrToTxrep`) -/

/-- Iterate the element encoder over a sequence (goxdr `XdrMarshalN`,
modelled from the spec). -/
def encodeSeqGo (f : Chars → Val → List (Chars × Chars)) (name : Chars) :
    Nat → Val → List (Chars × Chars)
  | i, .consV v vs => f (idxName name i) v ++ encodeSeqGo f name (i + 1) vs
  | _, _ => []

/-- The `.len` line key of the encoder (part_001:228): dot omitted at
the root. -/
def lenKeyEnc (name : Chars) : Chars :=
  name ++ (if name = [] then [] else ['.']) ++ ofStr "len"

/-- One traversal step of the encoder: produces the `(key, value)` text
lines of a node (value text is everything after the line's colon,
including the leading space of `": "`).  Dispatch order and per-kind
text follow part_001:150-244; the helped-enum branch is off because
`XdrToTxrep`'s default `getHelp` returns false. -/
def encodeNode : Shape → Val → Chars → Nat → List (Chars × Chars)
  | .u32S, v, name, _ =>
    [(name, ' ' :: natDec (match v with | .u32V x => x | _ => 0))]
  | .i64S, v, name, _ =>
    let x := match v with | .i64V x => x | _ => 0
    [(name, ' ' :: (intDec x ++ (' ' :: '(' :: (ScaleFmt x 7 ++ [')']))))]
  | .timeS, v, name, _ =>
    let x := match v with | .timeV x => x | _ => 0
    [(name, ' ' :: (natDec x ++ dateComment x))]
  | .enumS table, v, name, _ =>
    [(name, ' ' :: enumStr table (match v with | .enumV x => x | _ => 0))]
  | .arrS n, v, name, _ =>
    let bs := match v with | .arrV bs => bs | _ => []
    if isShim n name then [(shimName name, ' ' :: strKeyEnc 0 bs)]
    else [(name, ' ' :: hexEnc bs)]
  | .codeS _, v, name, _ =>
    [(name, ' ' :: renderCode (match v with | .codeV bs => bs | _ => []))]
  | .vecOS, v, name, _ =>
    [(name, ' ' :: PrintVecOpaque (match v with | .vecOV bs => bs | _ => []))]
  | .acctS, v, name, _ =>
    let p := match v with | .acctV ty key => (ty, key) | _ => (0, [])
    [(name, ' ' :: strKeyEnc p.1 p.2)]
  | .ptrS inner, v, name, pd =>
    match v with
    | .ptrSomeV w =>
      (name ++ presentSuffix (pd + 1), ' ' :: ofStr "true")
        :: encodeNode inner w name (pd + 1)
    | _ => [(name ++ presentSuffix (pd + 1), ' ' :: ofStr "false")]
  | .vecS _ elem, v, name, pd =>
    let es := match v with | .vecV es => es | _ => .nilV
    (lenKeyEnc name, ' ' :: natDec (chainLen es))
      :: encodeSeqGo (fun nm w => encodeNode elem w nm pd) name 0 es
  | .fieldS fname s rest, v, name, pd =>
    let p := match v with | .fieldV a b => (a, b) | _ => (zeroVal s, .endV)
    encodeNode s p.1 (childName name fname) pd ++ encodeNode rest p.2 name pd
  | .endS, _, _, _ => []

/-! ### The decoder (`xdrScan.Marshal`, part_001:362-481, with the
default `setHelp` no-op installed by `XdrFromTxrep`) -/

structure Lineval where
  line : Nat
  val : Chars
  deriving DecidableEq, Repr

/-- The name → (line, value) table.  Insertion overwrites (Go map with
last-occurrence-wins), lookup of a missing key yields the zero
`lineval`, exactly as Go map indexing does. -/
abbrev Kvs := List (Chars × Lineval)

def kvsGet (m : Kvs) (k : Chars) : Lineval :=
  match m.find? (fun p => p.1 == k) with
  | some p => p.2
  | none => ⟨0, []⟩

def kvsHas (m : Kvs) (k : Chars) : Bool :=
  (m.find? (fun p => p.1 == k)).isSome

def kvsPut (m : Kvs) (k : Chars) (v : Lineval) : Kvs :=
  (k, v) :: m.filter (fun p => !(p.1 == k))

def kvsDel (m : Kvs) (k : Chars) : Kvs :=
  m.filter (fun p => !(p.1 == k))

/-- Decode state: the remaining table and the accumulated
`(line, message)` errors (`TxrepError`). -/
structure ScanSt where
  kvs : Kvs
  errs : List (Nat × Chars)
  deriving DecidableEq, Repr

/-- `xdrScan.report` (part_001:354-360). -/
def report (st : ScanSt) (line : Nat) (msg : Chars) : ScanSt :=
  { st with errs := st.errs ++ [(line, msg)] }

/-- The `delete(xs.kvs, name)` at the end of `Marshal`. -/
def delSt (st : ScanSt) (name : Chars) : ScanSt :=
  { st with kvs := kvsDel st.kvs name }

/-- The exact message of the size-bound error (part_001:419-420):
`"%s.%s (%d) exceeds maximum size %d."`. -/
def msgSizeExceeds (name : Chars) (size bound : Nat) : Chars :=
  name ++ ('.' :: ofStr "len (") ++ natDec size
    ++ ofStr ") exceeds maximum size " ++ natDec bound ++ ['.']

/-- The message of the presence error (part_001:459):
`"%s (%s) must be true or false"`. -/
def msgMustBool (field val : Chars) : Chars :=
  field ++ ofStr " (" ++ val ++ ofStr ") must be true or false"

/-- `"syntax error"` (part_001:524). -/
def msgSyntax : Chars := ofStr "syntax error"

/-- Part_001:478. -/
def msgSrcAcct : Chars := ofStr "sourceAccount must be type Ed25519 for V0 transaction"

/-- Stand-in text of an external scanner error (`err.Error()` of a
failed `fmt.Sscan`); the source forwards the library's message, whose
exact text the model does not reproduce. -/
def msgBadValue : Chars := ofStr "bad value"

/-- Messages of the `scanCode` errors (part_000:82, 103; the reader
errors are forwarded). -/
def codeErrMsg : CodeErr → Chars
  | .invalidChar => ofStr "Invalid character in AssetCode"
  | .tooLong => ofStr "AssetCode too long"
  | .readEOF => ofStr "EOF"
  | .hexBad => ofStr "bad hex escape"

/-- Iterate the element decoder over the resized element chain (goxdr
vector recursion, modelled from the spec; elements are scanned at their
per-index sub-names). -/
def decodeSeqGo (f : Chars → Val → ScanSt → Val × ScanSt) (name : Chars) :
    Nat → Val → ScanSt → Val × ScanSt
  | i, .consV h t, st =>
    let r1 := f (idxName name i) h st
    let r2 := decodeSeqGo f name (i + 1) t r1.2
    (.consV r1.1 r2.1, r2.2)
  | _, _, st => (.nilV, st)

/-- One traversal step of the decoder.  `name` and `pd` mirror the
`name` argument and the tracked pointer depth; `prior` is the node of
the caller's tree being mutated in place; dispatch order and per-kind
behavior follow part_001:362-481.  Early `return`s (absent keys) skip
the trailing `delete`, every other path reaches it. -/
def decodeNode : Shape → Chars → Nat → Val → ScanSt → Val × ScanSt
  | .u32S, name, _, prior, st =>
    if kvsHas st.kvs name then
      let lv := kvsGet st.kvs name
      match parseU32 lv.val with
      | some v => (.u32V v, delSt st name)
      | none => (prior, delSt (report st lv.line msgBadValue) name)
    else (prior, st)
  | .i64S, name, _, prior, st =>
    if kvsHas st.kvs name then
      let lv := kvsGet st.kvs name
      match parseI64 lv.val with
      | some v => (.i64V v, delSt st name)
      | none => (prior, delSt (report st lv.line msgBadValue) name)
    else (prior, st)
  | .timeS, name, _, prior, st =>
    if kvsHas st.kvs name then
      let lv := kvsGet st.kvs name
      match parseU64 lv.val with
      | some v => (.timeV v, delSt st name)
      | none => (prior, delSt (report st lv.line msgBadValue) name)
    else (prior, st)
  | .enumS table, name, _, prior, st =>
    if kvsHas st.kvs name then
      let lv := kvsGet st.kvs name
      match enumParse table (tokenOf lv.val) with
      | some v => (.enumV v, delSt st name)
      | none => (prior, delSt (report st lv.line msgBadValue) name)
    else (prior, st)
  | .arrS n, name, _, prior, st =>
    if isShim n name then
      -- the legacy source-account shim (part_001:364-370, 471-480):
      -- the name is rewritten and the node replaced by a fresh
      -- `AccountID{Type: ED25519}` before the table lookup; after the
      -- scan the Ed25519 key bytes are copied back.
      let sn := shimName name
      if kvsHas st.kvs sn then
        let lv := kvsGet st.kvs sn
        match strKeyParse (tokenOf lv.val) with
        | some tk =>
          let st1 := delSt st sn
          if tk.1 = 0 then (.arrV tk.2, st1)
          else (prior, report st1 (kvsGet st1.kvs sn).line msgSrcAcct)
        | none =>
          -- scan failure leaves the fresh zero key, which the copy
          -- then writes over the caller's bytes
          let st1 := delSt (report st lv.line msgBadValue) sn
          (.arrV (List.replicate 32 0), st1)
      else (prior, st)
    else
      if kvsHas st.kvs name then
        let lv := kvsGet st.kvs name
        match arrParse n lv.val with
        | some bs => (.arrV bs, delSt st name)
        | none => (prior, delSt (report st lv.line msgBadValue) name)
      else (prior, st)
  | .codeS n, name, _, prior, st =>
    if kvsHas st.kvs name then
      let lv := kvsGet st.kvs name
      match scanCode n lv.val with
      | .ok bs => (.codeV bs, delSt st name)
      | .error e => (prior, delSt (report st lv.line (codeErrMsg e)) name)
    else (prior, st)
  | .vecOS, name, _, prior, st =>
    if kvsHas st.kvs name then
      let lv := kvsGet st.kvs name
      match vecOParse lv.val with
      | some bs => (.vecOV bs, delSt st name)
      | none =>
        if tokenOf lv.val = ['0'] then (.vecOV [], delSt st name)
        else (prior, delSt (report st lv.line msgBadValue) name)
    else (prior, st)
  | .acctS, name, _, prior, st =>
    if kvsHas st.kvs name then
      let lv := kvsGet st.kvs name
      match strKeyParse (tokenOf lv.val) with
      | some tk => (.acctV tk.1 tk.2, delSt st name)
      | none => (prior, delSt (report st lv.line msgBadValue) name)
    else (prior, st)
  | .ptrS inner, name, pd, prior, st =>
    let pk := name ++ presentSuffix (pd + 1)
    let plv := kvsGet st.kvs pk
    let tok := tokenOf plv.val
    let v1 : Chars :=
      if tok ≠ [] then tok
      else if kvsHas st.kvs name then ofStr "true"
      else if st.kvs.any (fun p => (name ++ ['.']).isPrefixOf p.1) then ofStr "true"
      else ofStr "false"
    let pres : Bool × ScanSt :=
      if v1 = ofStr "false" then (false, st)
      else if v1 = ofStr "true" then (true, st)
      else (true, report st plv.line (msgMustBool pk v1))
    if pres.1 then
      let ip := match prior with | .ptrSomeV x => x | _ => zeroVal inner
      let r := decodeNode inner name (pd + 1) ip pres.2
      (.ptrSomeV r.1, delSt r.2 name)
    else (.ptrNilV, delSt pres.2 name)
  | .vecS bound elem, name, pd, prior, st =>
    -- goxdr vector recursion: the `*xdr.XdrSize` case (part_001:411-421)
    -- runs first under the vector's own name (its `Marshal` call also
    -- reaches the trailing delete), then the elements.
    let lv := kvsGet st.kvs (name ++ '.' :: ofStr "len")
    let size0 := (parseU32 lv.val).getD 0
    let szr : Nat × ScanSt :=
      if size0 ≤ bound then (size0, st)
      else (bound, report st lv.line (msgSizeExceeds name size0 bound))
    let st1 := delSt szr.2 name
    let priors := match prior with | .vecV es => es | _ => .nilV
    let base := resizeChain priors szr.1 (zeroVal elem)
    let r := decodeSeqGo (fun nm w stw => decodeNode elem nm pd w stw) name 0 base st1
    (.vecV r.1, delSt r.2 name)
  | .fieldS fname s rest, name, pd, prior, st =>
    let p := match prior with | .fieldV a b => (a, b) | _ => (zeroVal s, Val.endV)
    let r1 := decodeNode s (childName name fname) pd p.1 st
    let r2 := decodeNode rest name pd p.2 r1.2
    (.fieldV r1.1 r2.1, r2.2)
  | .endS, name, _, _, st => (.endV, delSt st name)

/-! ### Reading the line table (`ReadTextLine` / `xdrScan.readKvs`,
part_001:492-529) -/

/-- Strip one trailing carriage return (part_001:500-502). -/
def stripCR (l : Chars) : Chars :=
  if l.getLast? = some '\r' then l.dropLast else l

/-- Split a line at its first colon (`strings.SplitN(line, ":", 2)`);
`none` when the line has no colon. -/
def splitColon : Chars → Option (Chars × Chars)
  | [] => none
  | c :: rest =>
    if c = ':' then some ([], rest)
    else match splitColon rest with
      | some kv => some (c :: kv.1, kv.2)
      | none => none

/-- Split the input into lines at newlines, as the `ReadTextLine` loop
consumes the reader. -/
def splitNl : Chars → List Chars
  | [] => [[]]
  | c :: rest =>
    if c = '\n' then [] :: splitNl rest
    else match splitNl rest with
      | l :: ls => (c :: l) :: ls
      | [] => [[c]]

/-- `readKvs` (part_001:506-529): number lines from 1, skip blank
lines, record a syntax error for a line without a colon, store
key/value pairs with last occurrence winning. -/
def readKvsGo : List Chars → Nat → ScanSt → ScanSt
  | [], _, st => st
  | l :: rest, lineno, st =>
    let ln := lineno + 1
    let l1 := stripCR l
    if l1 = [] then readKvsGo rest ln st
    else
      match splitColon l1 with
      | some kv => readKvsGo rest ln { st with kvs := kvsPut st.kvs kv.1 ⟨ln, kv.2⟩ }
      | none => readKvsGo rest ln (report st ln msgSyntax)

/-! ### The two entry points -/

/-- `XdrToTxrep` (part_001:261-300) with the default annotation
callbacks: the emitted text.  No node of this model universe panics, so
the returned `XdrBadValue` list is always empty and is omitted. -/
def XdrToTxrep (name : Chars) (s : Shape) (v : Val) : Chars :=
  ((encodeNode s v name 0).map (fun kv => kv.1 ++ ':' :: kv.2 ++ ['\n'])).flatten

/-- `XdrFromTxrep` (part_001:534-553) with the default `SetHelp` no-op:
build the line table, then scan the tree in place; returns the decoded
tree and the accumulated `TxrepError` list. -/
def XdrFromTxrep (doc : Chars) (name : Chars) (s : Shape) (t0 : Val) :
    Val × List (Nat × Chars) :=
  let st := readKvsGo (splitNl doc) 0 ⟨[], []⟩
  let r := decodeNode s name 0 t0 st
  (r.1, r.2.errs)

/-! ### Wellformedness of typed trees

`WfShape` captures what the XDR IDL guarantees statically (identifier
field names and enum symbols, distinct symbols); `WfVal` captures the
Go representation invariants of a value of the shape (byte ranges,
fixed lengths, integer widths); `InBounds` is the separate value
property that sequence lengths do not exceed their declared bounds —
Go slices can violate it, which is why it is not part of `WfVal`. -/

def identChar (c : Char) : Bool :=
  (65 ≤ c.toNat && c.toNat ≤ 90) || (97 ≤ c.toNat && c.toNat ≤ 122)
    || isDig c || c = '_'

def identName (s : Chars) : Bool :=
  match s with
  | [] => false
  | c :: _ =>
    ((65 ≤ c.toNat && c.toNat ≤ 90) || (97 ≤ c.toNat && c.toNat ≤ 122))
      && s.all identChar

def WfShape : Shape → Bool
  | .enumS table =>
    table.all (fun p => identName p.2 && decide (-(2 ^ 31) ≤ p.1)
      && decide (p.1 < 2 ^ 31))
      && decide (table.map Prod.snd).Nodup
  | .ptrS i => WfShape i
  | .vecS b e => decide (b < 2 ^ 32) && WfShape e
  | .fieldS f s rest => identName f && WfShape s && WfShape rest
  | _ => true

/-- Apply a value predicate to every cell of an element chain. -/
def valChainAll (f : Val → Bool) : Val → Bool
  | .consV h t => f h && valChainAll f t
  | .nilV => true
  | _ => false

def WfVal : Shape → Val → Bool
  | .u32S, .u32V v => v < 2 ^ 32
  | .i64S, .i64V v => decide (-(2 ^ 63) ≤ v) && decide (v < 2 ^ 63)
  | .timeS, .timeV v => v < 2 ^ 64
  | .enumS _, .enumV v => decide (-(2 ^ 31) ≤ v) && decide (v < 2 ^ 31)
  | .arrS n, .arrV bs => bs.length == n && bs.all (fun b => b < 256)
  | .codeS n, .codeV bs => bs.length == n && bs.all (fun b => b < 256)
  | .vecOS, .vecOV bs => bs.all (fun b => b < 256)
  | .acctS, .acctV ty key => ty == 0 && key.length == 32 && key.all (fun b => b < 256)
  | .ptrS _, .ptrNilV => true
  | .ptrS i, .ptrSomeV w => WfVal i w
  | .vecS _ e, .vecV es => valChainAll (WfVal e) es
  | .fieldS _ s rest, .fieldV a b => WfVal s a && WfVal rest b
  | .endS, .endV => true
  | _, _ => false

def InBounds : Shape → Val → Bool
  | .vecS b e, .vecV es => chainLen es ≤ b && valChainAll (InBounds e) es
  | .ptrS i, .ptrSomeV w => InBounds i w
  | .fieldS _ s rest, .fieldV a b => InBounds s a && InBounds rest b
  | _, _ => true

/-! ### Lemmas about the table operations -/

theorem kvsGet_not_has {m : Kvs} {k : Chars} (h : kvsHas m k = false) :
    kvsGet m k = ⟨0, []⟩ := by
  unfold kvsGet
  unfold kvsHas at h
  cases hf : m.find? (fun p => p.1 == k) with
  | none => rfl
  | some p => rw [hf] at h; simp at h

theorem kvsGet_put (m : Kvs) (k : Chars) (v : Lineval) :
    kvsGet (kvsPut m k v) k = v := by
  unfold kvsGet kvsPut
  rw [List.find?_cons_of_pos _ (by simp)]

theorem kvsHas_put (m : Kvs) (k : Chars) (v : Lineval) :
    kvsHas (kvsPut m k v) k = true := by
  unfold kvsHas kvsPut
  rw [List.find?_cons_of_pos _ (by simp)]
  rfl

theorem find?_filter_ne (m : Kvs) (k j : Chars) (h : ¬(j = k)) :
    (m.filter (fun p => !(p.1 == k))).find? (fun p => p.1 == j)
      = m.find? (fun p => p.1 == j) := by
  induction m with
  | nil => rfl
  | cons p ps ih =>
    rw [List.filter_cons]
    by_cases hpk : p.1 = k
    · rw [if_neg (by simp [hpk])]
      rw [List.find?_cons_of_neg _ (by
        simp only [beq_iff_eq]
        intro hc
        exact h (by rw [← hc, hpk]))]
      exact ih
    · rw [if_pos (by simp [hpk])]
      by_cases hpj : p.1 = j
      · rw [List.find?_cons_of_pos _ (by simp [hpj]),
          List.find?_cons_of_pos _ (by simp [hpj])]
      · rw [List.find?_cons_of_neg _ (by simp [hpj]),
          List.find?_cons_of_neg _ (by simp [hpj])]
        exact ih

theorem kvsGet_put_ne (m : Kvs) (k j : Chars) (v : Lineval) (h : ¬(j = k)) :
    kvsGet (kvsPut m k v) j = kvsGet m j := by
  unfold kvsGet kvsPut
  rw [List.find?_cons_of_neg _ (by
    simp only [beq_iff_eq]
    intro hc
    exact h hc.symm)]
  rw [find?_filter_ne m k j h]

theorem kvsHas_put_ne (m : Kvs) (k j : Chars) (v : Lineval) (h : ¬(j = k)) :
    kvsHas (kvsPut m k v) j = kvsHas m j := by
  unfold kvsHas kvsPut
  rw [List.find?_cons_of_neg _ (by
    simp only [beq_iff_eq]
    intro hc
    exact h hc.symm)]
  rw [find?_filter_ne m k j h]

theorem kvsGet_del_ne (m : Kvs) (k j : Chars) (h : ¬(j = k)) :
    kvsGet (kvsDel m k) j = kvsGet m j := by
  unfold kvsGet kvsDel
  rw [find?_filter_ne m k j h]

theorem kvsHas_del_ne (m : Kvs) (k j : Chars) (h : ¬(j = k)) :
    kvsHas (kvsDel m k) j = kvsHas m j := by
  unfold kvsHas kvsDel
  rw [find?_filter_ne m k j h]

theorem kvsHas_del_self (m : Kvs) (k : Chars) : kvsHas (kvsDel m k) k = false := by
  unfold kvsHas kvsDel
  induction m with
  | nil => rfl
  | cons p ps ih =>
    rw [List.filter_cons]
    by_cases hpk : p.1 = k
    · rw [if_neg (by simp [hpk])]
      exact ih
    · rw [if_pos (by simp [hpk])]
      rw [List.find?_cons_of_neg _ (by simp [hpk])]
      exact ih

/-! ### From encoded text to the line table -/

/-- Characters a key may contain so the line parser recovers it: no
newline (line structure), no colon (the split is at the first colon),
no carriage return (the `\r`-strip). -/
def keySafeChar (c : Char) : Bool :=
  !(c = '\n') && (!(c = ':') && !(c = '\r'))

/-- Characters a value may contain: no newline and no carriage
return. -/
def valSafeChar (c : Char) : Bool := !(c = '\n') && !(c = '\r')

theorem splitNl_line (l : Chars) : ∀ rest,
    (∀ c ∈ l, ¬(c = '\n')) →
    splitNl (l ++ '\n' :: rest) = l :: splitNl rest := by
  induction l with
  | nil => intro rest _; simp [splitNl]
  | cons c cs ih =>
    intro rest h
    rw [List.cons_append]
    show (if c = '\n' then [] :: splitNl (cs ++ '\n' :: rest)
      else match splitNl (cs ++ '\n' :: rest) with
        | l :: ls => (c :: l) :: ls
        | [] => [[c]]) = _
    rw [if_neg (h c (by simp)), ih rest fun d hd => h d (by simp [hd])]

theorem splitColon_key (k : Chars) : ∀ v,
    (∀ c ∈ k, ¬(c = ':')) →
    splitColon (k ++ ':' :: v) = some (k, v) := by
  induction k with
  | nil => intro v _; simp [splitColon]
  | cons c cs ih =>
    intro v h
    rw [List.cons_append]
    show (if c = ':' then some ([], cs ++ ':' :: v)
      else match splitColon (cs ++ ':' :: v) with
        | some kv => some (c :: kv.1, kv.2)
        | none => none) = _
    rw [if_neg (h c (by simp)), ih v fun d hd => h d (by simp [hd])]

theorem stripCR_safe (l : Chars) (h : ∀ c ∈ l, ¬(c = '\r')) : stripCR l = l := by
  unfold stripCR
  cases hl : l.getLast? with
  | none => simp
  | some c =>
    have hx : c ∈ l.getLast? := by rw [hl]; rfl
    rcases List.mem_getLast?_eq_getLast hx with ⟨hne, hcl⟩
    have hc : c ∈ l := hcl ▸ List.getLast_mem hne
    rw [if_neg (by simp [h c hc])]

/-- Insert the numbered pairs in order (what `readKvs` builds). -/
def putAll (m : Kvs) : List (Chars × Chars) → Nat → Kvs
  | [], _ => m
  | p :: ps, n => putAll (kvsPut m p.1 ⟨n + 1, p.2⟩) ps (n + 1)

/-- `readKvs` on wellformed `key: value` lines builds exactly the
ordered insertion of the pairs and records no errors. -/
theorem readKvsGo_pairs (pairs : List (Chars × Chars)) : ∀ n st,
    (∀ p ∈ pairs, (∀ c ∈ p.1, keySafeChar c = true)
      ∧ (∀ c ∈ p.2, valSafeChar c = true)) →
    readKvsGo (pairs.map (fun p => p.1 ++ ':' :: p.2) ++ [[]]) n st
      = { st with kvs := putAll st.kvs pairs n } := by
  induction pairs with
  | nil =>
    intro n st _
    simp [readKvsGo, putAll, stripCR]
  | cons p ps ih =>
    intro n st h
    have hp := h p (by simp)
    have hkey : ∀ c ∈ p.1, ¬(c = ':') := by
      intro c hc
      have hx := hp.1 c hc
      simp only [keySafeChar, Bool.and_eq_true, Bool.not_eq_true',
        decide_eq_false_iff_not] at hx
      exact hx.2.1
    have hnocr : ∀ c ∈ (p.1 ++ ':' :: p.2), ¬(c = '\r') := by
      intro c hc
      rcases List.mem_append.mp hc with hc | hc
      · have hx := hp.1 c hc
        simp only [keySafeChar, Bool.and_eq_true, Bool.not_eq_true',
          decide_eq_false_iff_not] at hx
        exact hx.2.2
      · rcases List.mem_cons.mp hc with rfl | hc
        · simp
        · have hx := hp.2 c hc
          simp only [valSafeChar, Bool.and_eq_true, Bool.not_eq_true',
            decide_eq_false_iff_not] at hx
          exact hx.2
    simp only [List.map_cons, List.cons_append]
    unfold readKvsGo
    rw [stripCR_safe _ hnocr]
    rw [if_neg (by simp)]
    rw [splitColon_key p.1 p.2 hkey]
    show readKvsGo (ps.map (fun p => p.1 ++ ':' :: p.2) ++ [[]]) (n + 1)
      { st with kvs := kvsPut st.kvs p.1 ⟨n + 1, p.2⟩ } = _
    rw [ih (n + 1) _ (fun q hq => h q (by simp [hq]))]
    rfl

theorem putAll_not_mem (pairs : List (Chars × Chars)) : ∀ m n (k : Chars),
    k ∉ pairs.map Prod.fst →
    kvsGet (putAll m pairs n) k = kvsGet m k
      ∧ kvsHas (putAll m pairs n) k = kvsHas m k := by
  induction pairs with
  | nil => intro m n k _; exact ⟨rfl, rfl⟩
  | cons q ps ih =>
    intro m n k hk
    simp only [List.map_cons, List.mem_cons] at hk
    push_neg at hk
    unfold putAll
    have := ih (kvsPut m q.1 ⟨n + 1, q.2⟩) (n + 1) k hk.2
    rw [this.1, this.2, kvsGet_put_ne m q.1 k _ hk.1, kvsHas_put_ne m q.1 k _ hk.1]
    exact ⟨rfl, rfl⟩

theorem putAll_mem (pairs : List (Chars × Chars)) : ∀ m n (k : Chars) (v : Chars),
    (pairs.map Prod.fst).Nodup → (k, v) ∈ pairs →
    kvsHas (putAll m pairs n) k = true
      ∧ (kvsGet (putAll m pairs n) k).val = v := by
  induction pairs with
  | nil => intro m n k v _ hmem; simp at hmem
  | cons q ps ih =>
    intro m n k v hnd hmem
    simp only [List.map_cons, List.nodup_cons] at hnd
    unfold putAll
    rcases List.mem_cons.mp hmem with rfl | hmem
    · have hnot : k ∉ ps.map Prod.fst := by
        simpa using hnd.1
      have hframe := putAll_not_mem ps (kvsPut m k ⟨n + 1, v⟩) (n + 1) k hnot
      rw [hframe.1, hframe.2, kvsGet_put, kvsHas_put]
      exact ⟨rfl, rfl⟩
    · exact ih _ (n + 1) k v hnd.2 hmem

/-! ### Footprint and separation of subtrees

`encKeys` are the keys a subtree's encoding emits; `footprint`
over-approximates the keys its decoding reads or deletes (the node
names).  `SepOk` demands that decoding one sibling cannot disturb the
keys a later sibling still has to consume — the document-level
key-uniqueness invariant of spec section 3. -/

def encKeys (s : Shape) (v : Val) (name : Chars) (pd : Nat) : List Chars :=
  (encodeNode s v name pd).map Prod.fst

/-- Keys of all elements of a chain from index `i` on. -/
def chainKeys (ks : Chars → Val → List Chars) (name : Chars) :
    Nat → Val → List Chars
  | i, .consV h t => ks (idxName name i) h ++ chainKeys ks name (i + 1) t
  | _, _ => []

def footprint : Shape → Val → Chars → Nat → List Chars
  | .arrS n, _, name, _ => if isShim n name then [shimName name] else [name]
  | .ptrS inner, v, name, pd =>
    (name ++ presentSuffix (pd + 1)) :: name
      :: (match v with
          | .ptrSomeV w => footprint inner w name (pd + 1)
          | _ => [])
  | .vecS _ elem, v, name, pd =>
    (name ++ '.' :: ofStr "len") :: lenKeyEnc name :: name
      :: chainKeys (fun nm w => footprint elem w nm pd) name 0
          (match v with | .vecV es => es | _ => .nilV)
  | .fieldS f s rest, v, name, pd =>
    footprint s (match v with | .fieldV a _ => a | _ => zeroVal s)
        (childName name f) pd
      ++ footprint rest (match v with | .fieldV _ b => b | _ => .endV) name pd
  | .endS, _, name, _ => [name]
  | _, _, name, _ => [name]

/-- `k` does not occur in `l` (by list membership, decidably). -/
def notIn (k : Chars) (l : List Chars) : Bool := l.all (fun j => !(j == k))

/-- Pairwise separation of the elements of a chain: each later
element's encoded keys avoid every earlier element's footprint. -/
def seqSep (fp ks : Chars → Val → List Chars) (name : Chars) :
    Nat → Val → Bool
  | i, .consV h t =>
    (chainKeys ks name (i + 1) t).all (fun k => notIn k (fp (idxName name i) h))
      && seqSep fp ks name (i + 1) t
  | _, _ => true

/-- A per-element check over a chain, with the element's index name. -/
def seqAll (f : Chars → Val → Bool) (name : Chars) : Nat → Val → Bool
  | i, .consV h t => f (idxName name i) h && seqAll f name (i + 1) t
  | _, _ => true

def SepOk : Shape → Val → Chars → Nat → Bool
  | .ptrS inner, v, name, pd =>
    match v with
    | .ptrSomeV w => SepOk inner w name (pd + 1)
    | _ => true
  | .vecS _ elem, v, name, pd =>
    let es := match v with | .vecV es => es | _ => .nilV
    !name.isEmpty
      && (chainKeys (fun nm w => encKeys elem w nm pd) name 0 es).all
          (fun k => !(k == name))
      && seqSep (fun nm w => footprint elem w nm pd)
          (fun nm w => encKeys elem w nm pd) name 0 es
      && seqAll (fun nm w => SepOk elem w nm pd) name 0 es
  | .fieldS f s rest, v, name, pd =>
    let a := match v with | .fieldV a _ => a | _ => zeroVal s
    let b := match v with | .fieldV _ b => b | _ => Val.endV
    SepOk s a (childName name f) pd && SepOk rest b name pd
      && (encKeys rest b name pd).all
          (fun k => notIn k (footprint s a (childName name f) pd))
  | _, _, _, _ => true

/-! ### Small supporting lemmas for the round trip -/

theorem zeroVal_wf (s : Shape) : WfVal s (zeroVal s) = true := by
  induction s with
  | u32S => decide
  | i64S => decide
  | timeS => decide
  | enumS table => rfl
  | arrS n => simp [zeroVal, WfVal, List.all_eq_true]
  | codeS n => simp [zeroVal, WfVal, List.all_eq_true]
  | vecOS => decide
  | acctS => simp [zeroVal, WfVal, List.all_eq_true]
  | ptrS i ih => rfl
  | vecS b e ih => rfl
  | fieldS f s rest ihs ihr => simp [zeroVal, WfVal, ihs, ihr]
  | endS => rfl

theorem takeWhile_all {p : Char → Bool} {l : Chars}
    (h : ∀ c ∈ l, p c = true) : l.takeWhile p = l := by
  induction l with
  | nil => rfl
  | cons c cs ih =>
    rw [List.takeWhile_cons, h c (by simp)]
    simp [ih fun d hd => h d (by simp [hd])]

theorem tokenOf_space_lead {t : Chars} (h : ∀ c ∈ t, goIsSpace c = false) :
    tokenOf (' ' :: t) = t := by
  unfold tokenOf
  rw [List.dropWhile_cons]
  simp only [show goIsSpace ' ' = true by decide, if_true]
  have hdw : t.dropWhile goIsSpace = t := by
    cases t with
    | nil => rfl
    | cons c cs => exact dropWhile_cons_false (h c (by simp))
  rw [hdw]
  exact takeWhile_all fun c hc => by simp [h c hc]

theorem not_space_of_toNat_range {c : Char} (h1 : 33 ≤ c.toNat) (h2 : c.toNat ≤ 126) :
    goIsSpace c = false := by
  simp only [goIsSpace, List.mem_cons, List.not_mem_nil, or_false,
    decide_eq_false_iff_not]
  omega

theorem hexDigChar_toNat_range {n : Nat} (h : n < 16) :
    48 ≤ (hexDigChar n).toNat ∧ (hexDigChar n).toNat ≤ 102 := by
  interval_cases n <;> decide

theorem hexEnc_not_space {bs : List Nat} (h : ∀ b ∈ bs, b < 256) :
    ∀ c ∈ hexEnc bs, goIsSpace c = false := by
  intro c hc
  simp only [hexEnc, List.mem_flatMap] at hc
  rcases hc with ⟨b, hb, hcb⟩
  have hblt : b < 256 := h b hb
  simp only [hexByte, List.mem_cons, List.not_mem_nil, or_false] at hcb
  rcases hcb with rfl | rfl
  · have := hexDigChar_toNat_range (show b / 16 < 16 by omega)
    exact not_space_of_toNat_range (by omega) (by omega)
  · have := hexDigChar_toNat_range (show b % 16 < 16 by omega)
    exact not_space_of_toNat_range (by omega) (by omega)

theorem identChar_toNat_range {c : Char} (h : identChar c = true) :
    48 ≤ c.toNat ∧ c.toNat ≤ 122 := by
  simp only [identChar, isDig, Bool.or_eq_true, Bool.and_eq_true,
    decide_eq_true_eq] at h
  rcases h with ((h | h) | h) | h
  · omega
  · omega
  · omega
  · subst h
    decide

theorem identChar_not_space {c : Char} (h : identChar c = true) :
    goIsSpace c = false := by
  have := identChar_toNat_range h
  exact not_space_of_toNat_range (by omega) (by omega)

theorem strKeyEnc_not_space {ty : Nat} {key : List Nat}
    (h : ∀ b ∈ key, b < 256) :
    ∀ c ∈ strKeyEnc ty key, goIsSpace c = false := by
  intro c hc
  unfold strKeyEnc at hc
  rcases List.mem_cons.mp hc with rfl | hc
  · by_cases hty : ty = 0 <;> simp [hty] <;> decide
  · exact hexEnc_not_space h c hc

theorem chainLen_resize (n : Nat) : ∀ (c z : Val),
    chainLen (resizeChain c n z) = n := by
  induction n with
  | zero => intro c z; cases c <;> rfl
  | succ m ih =>
    intro c z
    cases c <;> simp [resizeChain, chainLen, ih]

/-- Resizing a chain to its own length is the identity on chains. -/
theorem resizeChain_self : ∀ (es z : Val), valChainAll (fun _ => true) es = true →
    resizeChain es (chainLen es) z = es := by
  intro es
  induction es with
  | u32V v => intro z hch; simp [valChainAll] at hch
  | i64V v => intro z hch; simp [valChainAll] at hch
  | timeV v => intro z hch; simp [valChainAll] at hch
  | enumV v => intro z hch; simp [valChainAll] at hch
  | arrV bs => intro z hch; simp [valChainAll] at hch
  | codeV bs => intro z hch; simp [valChainAll] at hch
  | vecOV bs => intro z hch; simp [valChainAll] at hch
  | acctV ty key => intro z hch; simp [valChainAll] at hch
  | ptrNilV => intro z hch; simp [valChainAll] at hch
  | ptrSomeV w ih => intro z hch; simp [valChainAll] at hch
  | vecV es ih => intro z hch; simp [valChainAll] at hch
  | consV h t ih1 ih2 =>
    intro z hch
    simp only [valChainAll, Bool.and_eq_true] at hch
    simp only [chainLen, resizeChain]
    rw [ih2 z hch.2]
  | nilV => intro z _; rfl
  | fieldV a b ih1 ih2 => intro z hch; simp [valChainAll] at hch
  | endV => intro z hch; simp [valChainAll] at hch

theorem intDec_head {x : Int} : ∀ c, (intDec x).head? = some c →
    c = '-' ∨ isDig c = true := by
  intro c hc
  unfold intDec at hc
  split at hc
  · simp at hc
    exact Or.inl hc.symm
  · exact Or.inr (natDec_head_digit _ c hc)

theorem intDec_ne_nil (x : Int) : intDec x ≠ [] := by
  unfold intDec
  split
  · simp
  · exact natDec_ne_nil _

theorem identName_ne_intDec {s : Chars} {x : Int} (h : identName s = true) :
    ¬(s = intDec x) := by
  intro heq
  cases s with
  | nil => simp [identName] at h
  | cons c cs =>
    simp only [identName, Bool.and_eq_true, Bool.or_eq_true, decide_eq_true_eq] at h
    have hdl : (intDec x).head? = some c := by rw [← heq]; rfl
    rcases intDec_head c hdl with rfl | hd
    · have h45 : ('-').toNat = 45 := by decide
      rcases h.1 with h1 | h1 <;> omega
    · simp only [isDig, Bool.and_eq_true, decide_eq_true_eq] at hd
      rcases h.1 with h1 | h1 <;> omega

theorem identName_not_space {s : Chars} (h : identName s = true) :
    ∀ c ∈ s, goIsSpace c = false := by
  intro c hc
  cases s with
  | nil => simp [identName] at h
  | cons d ds =>
    simp only [identName, Bool.and_eq_true, List.all_eq_true] at h
    exact identChar_not_space (h.2 c hc)

/-- With a wellformed symbol table, parsing the rendered symbol (or the
numeric fallback) recovers the enum value. -/
theorem enumParse_enumStr (table : List (Int × Chars)) (x : Int)
    (hwf : WfShape (.enumS table) = true)
    (hx : -(2 ^ 31) ≤ x ∧ x < 2 ^ 31) :
    enumParse table (enumStr table x) = some x := by
  have hwf2 := hwf
  simp only [WfShape, Bool.and_eq_true, List.all_eq_true, decide_eq_true_eq] at hwf2
  cases hf : table.find? (fun p => p.1 == x) with
  | some p =>
    have hes : enumStr table x = p.2 := by unfold enumStr; rw [hf]
    have hpx : p.1 = x := by
      have := List.find?_some hf
      simpa using this
    have hpmem : p ∈ table := List.mem_of_find?_eq_some hf
    have hpsym : identName p.2 = true := (hwf2.1 p hpmem).1.1
    have hne : ¬(p.2 = []) := by
      intro hcc
      rw [hcc] at hpsym
      simp [identName] at hpsym
    rw [hes]
    unfold enumParse
    rw [if_neg hne]
    cases hq : table.find? (fun q => q.2 == p.2) with
    | some q =>
      have hq2 : q.2 = p.2 := by
        have := List.find?_some hq
        simpa using this
      have hqmem : q ∈ table := List.mem_of_find?_eq_some hq
      have hqp : q = p := List.inj_on_of_nodup_map hwf2.2 hqmem hpmem hq2
      show some q.1 = some x
      rw [hqp, hpx]
    | none =>
      rw [List.find?_eq_none] at hq
      exact absurd (by simp : (fun q => q.2 == p.2) p = true) (by simpa using hq p hpmem)
  | none =>
    have hes : enumStr table x = intDec x := by unfold enumStr; rw [hf]
    rw [hes]
    unfold enumParse
    rw [if_neg (intDec_ne_nil x)]
    cases hq : table.find? (fun q => q.2 == intDec x) with
    | some q =>
      have hq2 : q.2 = intDec x := by
        have := List.find?_some hq
        simpa using this
      have hqmem : q ∈ table := List.mem_of_find?_eq_some hq
      exact absurd hq2 (identName_ne_intDec ((hwf2.1 q hqmem).1.1))
    | none =>
      show parseI32 (intDec x) = some x
      have := parseI32_intDec x [] [] hx (by simp) (by simp)
      simpa using this

/-! ### Per-leaf decode-of-encoded-value lemmas -/

theorem parseU32_val {x : Nat} (hx : x < 2 ^ 32) :
    parseU32 (' ' :: natDec x) = some x := by
  have := parseU32_natDec x [' '] [] hx (by simp; decide) (by simp)
  simpa using this

theorem parseU64_val {x : Nat} (hx : x < 2 ^ 64) :
    parseU64 (' ' :: natDec x) = some x := by
  have := parseU64_natDec x [' '] [] hx (by simp; decide) (by simp)
  simpa using this

theorem parseI64_val {x : Int} (hx : -(2 ^ 63) ≤ x ∧ x < 2 ^ 63) (rest : Chars)
    (hrest : ∀ c, rest.head? = some c → isDig c = false) :
    parseI64 (' ' :: (intDec x ++ rest)) = some x := by
  have := parseI64_intDec x [' '] rest hx (by simp; decide) hrest
  simpa using this

theorem dateComment_head (x : Nat) :
    ∀ c, (dateComment x).head? = some c → isDig c = false := by
  intro c hc
  unfold dateComment at hc
  split at hc
  · simp at hc
  · simp at hc
    rw [← hc]
    decide

theorem parseU64_time {x : Nat} (hx : x < 2 ^ 64) :
    parseU64 (' ' :: (natDec x ++ dateComment x)) = some x := by
  have := parseU64_natDec x [' '] (dateComment x) hx (by simp; decide)
    (dateComment_head x)
  simpa using this

theorem paren_head : ∀ c : Char,
    (' ' :: '(' :: rest).head? = some c → isDig c = false := by
  intro c hc
  simp at hc
  rw [← hc]
  decide

theorem enumStr_not_space (table : List (Int × Chars)) (x : Int)
    (hwf : WfShape (.enumS table) = true) :
    ∀ c ∈ enumStr table x, goIsSpace c = false := by
  intro c hc
  have hwf2 := hwf
  simp only [WfShape, Bool.and_eq_true, List.all_eq_true, decide_eq_true_eq] at hwf2
  unfold enumStr at hc
  cases hf : table.find? (fun p => p.1 == x) with
  | some p =>
    rw [hf] at hc
    simp only at hc
    exact identName_not_space ((hwf2.1 p (List.mem_of_find?_eq_some hf)).1.1) c hc
  | none =>
    rw [hf] at hc
    simp only at hc
    unfold intDec at hc
    split at hc
    · rcases List.mem_cons.mp hc with rfl | hc
      · decide
      · exact digit_not_space (natDec_digits _ c hc)
    · exact digit_not_space (natDec_digits _ c hc)

theorem arrParse_enc {bs : List Nat} {n : Nat} (hlen : bs.length = n)
    (hlt : ∀ b ∈ bs, b < 256) :
    arrParse n (' ' :: hexEnc bs) = some bs := by
  unfold arrParse
  rw [tokenOf_space_lead (hexEnc_not_space hlt), hexParseAll_hexEnc bs hlt]
  simp [hlen]

theorem strKeyParse_enc {key : List Nat} (hlen : key.length = 32)
    (hlt : ∀ b ∈ key, b < 256) :
    strKeyParse (tokenOf (' ' :: strKeyEnc 0 key)) = some (0, key) := by
  rw [tokenOf_space_lead (strKeyEnc_not_space hlt)]
  show strKeyParse ('G' :: hexEnc key) = some (0, key)
  simp only [strKeyParse, if_pos rfl, hexParseAll_hexEnc key hlt]
  simp [hlen]

theorem vecOParse_enc {bs : List Nat} (hne : bs ≠ []) (hlt : ∀ b ∈ bs, b < 256) :
    vecOParse (' ' :: PrintVecOpaque bs) = some bs := by
  have hpv : PrintVecOpaque bs = hexEnc bs := by
    unfold PrintVecOpaque
    rw [if_neg hne]
  unfold vecOParse
  rw [hpv, tokenOf_space_lead (hexEnc_not_space hlt)]
  have hhne : hexEnc bs ≠ [] := by
    cases bs with
    | nil => exact absurd rfl hne
    | cons b bt => simp [hexEnc, hexByte]
  rw [if_neg hhne, hexParseAll_hexEnc bs hlt]

theorem vecOParse_empty :
    vecOParse (' ' :: PrintVecOpaque []) = none
      ∧ tokenOf (' ' :: PrintVecOpaque []) = ['0'] := by
  constructor <;> decide

/-! ### Chain helpers -/

theorem valChainAll_mono {f g : Val → Bool} (h : ∀ v, f v = true → g v = true) :
    ∀ es, valChainAll f es = true → valChainAll g es = true := by
  intro es
  induction es with
  | consV hd tl ih1 ih2 =>
    intro hch
    simp only [valChainAll, Bool.and_eq_true] at hch ⊢
    exact ⟨h hd hch.1, ih2 hch.2⟩
  | nilV => intro _; rfl
  | _ => intro hch; simp [valChainAll] at hch

theorem valChainAll_resize {f : Val → Bool} {z : Val} (hz : f z = true) :
    ∀ n es, valChainAll f es = true →
    valChainAll f (resizeChain es n z) = true := by
  intro n
  induction n with
  | zero => intro es _; cases es <;> rfl
  | succ m ih =>
    intro es hch
    cases es with
    | consV hd tl =>
      simp only [valChainAll, Bool.and_eq_true] at hch
      simp only [resizeChain, valChainAll, Bool.and_eq_true]
      exact ⟨hch.1, ih tl hch.2⟩
    | nilV =>
      simp only [resizeChain, valChainAll, Bool.and_eq_true]
      exact ⟨hz, ih .nilV rfl⟩
    | _ => simp [valChainAll] at hch

/-! ### Agreement and frame relations for the round-trip induction -/

/-- The table holds every encoded pair (any line numbers). -/
def Agrees (st : ScanSt) (pairs : List (Chars × Chars)) : Prop :=
  ∀ p ∈ pairs, kvsHas st.kvs p.1 = true ∧ (kvsGet st.kvs p.1).val = p.2

/-- Decoding left every key outside `fp` untouched. -/
def Preserves (st st2 : ScanSt) (fp : List Chars) : Prop :=
  ∀ k, k ∉ fp → kvsGet st2.kvs k = kvsGet st.kvs k
    ∧ kvsHas st2.kvs k = kvsHas st.kvs k

theorem preserves_refl (st : ScanSt) (fp : List Chars) : Preserves st st fp :=
  fun _ _ => ⟨rfl, rfl⟩

theorem preserves_del (st : ScanSt) (name : Chars) :
    Preserves st (delSt st name) [name] := by
  intro k hk
  simp only [List.mem_singleton] at hk
  exact ⟨kvsGet_del_ne _ _ _ hk, kvsHas_del_ne _ _ _ hk⟩

theorem preserves_comp {st st1 st2 : ScanSt} {fp1 fp2 : List Chars}
    (h1 : Preserves st st1 fp1) (h2 : Preserves st1 st2 fp2) :
    Preserves st st2 (fp1 ++ fp2) := by
  intro k hk
  simp only [List.mem_append] at hk
  push_neg at hk
  have ha := h1 k hk.1
  have hb := h2 k hk.2
  exact ⟨hb.1.trans ha.1, hb.2.trans ha.2⟩

theorem preserves_mono {st st2 : ScanSt} {fp fp2 : List Chars}
    (hsub : ∀ k, k ∈ fp → k ∈ fp2) (h : Preserves st st2 fp) :
    Preserves st st2 fp2 :=
  fun k hk => h k (fun hc => hk (hsub k hc))

theorem agrees_of_preserves {st st2 : ScanSt} {pairs : List (Chars × Chars)}
    {fp : List Chars} (ha : Agrees st pairs) (hp : Preserves st st2 fp)
    (hout : ∀ p ∈ pairs, p.1 ∉ fp) : Agrees st2 pairs := by
  intro p hpmem
  have h1 := ha p hpmem
  have h2 := hp p.1 (hout p hpmem)
  exact ⟨h2.2.trans h1.1, h2.1 ▸ h1.2⟩

theorem agrees_append_left {st : ScanSt} {l r : List (Chars × Chars)}
    (h : Agrees st (l ++ r)) : Agrees st l :=
  fun p hp => h p (List.mem_append.mpr (Or.inl hp))

theorem agrees_append_right {st : ScanSt} {l r : List (Chars × Chars)}
    (h : Agrees st (l ++ r)) : Agrees st r :=
  fun p hp => h p (List.mem_append.mpr (Or.inr hp))

/-- The keys of the encoded element lines are the element `encKeys`. -/
theorem chainKeys_encodeSeq (elem : Shape) (pd : Nat) (name : Chars) :
    ∀ es i, (encodeSeqGo (fun nm w => encodeNode elem w nm pd) name i es).map Prod.fst
      = chainKeys (fun nm w => encKeys elem w nm pd) name i es := by
  intro es
  induction es with
  | consV h t ih1 ih2 =>
    intro i
    simp only [encodeSeqGo, chainKeys, List.map_append, ih2 (i + 1)]
    rfl
  | nilV => intro i; rfl
  | u32V v => intro i; rfl
  | i64V v => intro i; rfl
  | timeV v => intro i; rfl
  | enumV v => intro i; rfl
  | arrV bs => intro i; rfl
  | codeV bs => intro i; rfl
  | vecOV bs => intro i; rfl
  | acctV ty key => intro i; rfl
  | ptrNilV => intro i; rfl
  | ptrSomeV w ih => intro i; rfl
  | vecV es ih => intro i; rfl
  | fieldV a b ih1 ih2 => intro i; rfl
  | endV => intro i; rfl

/-- Decoding the encoded elements of a sequence recovers them, given
the element round-trip property and pairwise separation. -/
theorem decodeSeq_encode (elem : Shape) (pd : Nat)
    (IH : ∀ (v : Val) (name : Chars) (prior : Val) (st : ScanSt),
      WfShape elem = true → WfVal elem v = true →
      InBounds elem v = true → WfVal elem prior = true →
      SepOk elem v name pd = true →
      Agrees st (encodeNode elem v name pd) →
      (decodeNode elem name pd prior st).1 = v
      ∧ (decodeNode elem name pd prior st).2.errs = st.errs
      ∧ Preserves st (decodeNode elem name pd prior st).2
          (footprint elem v name pd)) :
    ∀ (es : Val) (name : Chars) (i : Nat) (base : Val) (st : ScanSt),
    WfShape elem = true →
    valChainAll (WfVal elem) es = true →
    valChainAll (InBounds elem) es = true →
    valChainAll (WfVal elem) base = true →
    chainLen base = chainLen es →
    seqAll (fun nm w => SepOk elem w nm pd) name i es = true →
    seqSep (fun nm w => footprint elem w nm pd)
      (fun nm w => encKeys elem w nm pd) name i es = true →
    Agrees st (encodeSeqGo (fun nm w => encodeNode elem w nm pd) name i es) →
    (decodeSeqGo (fun nm w stw => decodeNode elem nm pd w stw) name i base st).1 = es
    ∧ (decodeSeqGo (fun nm w stw => decodeNode elem nm pd w stw) name i base st).2.errs
        = st.errs
    ∧ Preserves st
        (decodeSeqGo (fun nm w stw => decodeNode elem nm pd w stw) name i base st).2
        (chainKeys (fun nm w => footprint elem w nm pd) name i es) := by
  intro es
  induction es with
  | consV h t ih1 ih2 =>
    intro name i base st hws hwch hibch hwb hlen hsall hssep hag
    simp only [valChainAll, Bool.and_eq_true] at hwch hibch
    simp only [seqAll, Bool.and_eq_true] at hsall
    simp only [seqSep, Bool.and_eq_true, List.all_eq_true] at hssep
    cases base with
    | consV b bt =>
      simp only [valChainAll, Bool.and_eq_true] at hwb
      have hlen2 : chainLen bt = chainLen t := by
        simpa [chainLen] using hlen
      have hagh : Agrees st (encodeNode elem h (idxName name i) pd) :=
        agrees_append_left hag
      have hd := IH h (idxName name i) b st hws hwch.1 hibch.1 hwb.1 hsall.1 hagh
      have hagt : Agrees (decodeNode elem (idxName name i) pd b st).2
          (encodeSeqGo (fun nm w => encodeNode elem w nm pd) name (i + 1) t) := by
        apply agrees_of_preserves (agrees_append_right hag) hd.2.2
        intro p hp
        have hkmem : p.1 ∈ chainKeys (fun nm w => encKeys elem w nm pd)
            name (i + 1) t := by
          rw [← chainKeys_encodeSeq]
          exact List.mem_map_of_mem Prod.fst hp
        have hni := hssep.1 p.1 hkmem
        simp only [notIn, List.all_eq_true, Bool.not_eq_true',
          beq_eq_false_iff_ne] at hni
        intro hcon
        exact hni p.1 hcon rfl
      have ht := ih2 name (i + 1) bt (decodeNode elem (idxName name i) pd b st).2
        hws hwch.2 hibch.2 hwb.2 hlen2 hsall.2 hssep.2 hagt
      refine ⟨?_, ?_, ?_⟩
      · show Val.consV (decodeNode elem (idxName name i) pd b st).1
          (decodeSeqGo (fun nm w stw => decodeNode elem nm pd w stw) name (i + 1) bt
            (decodeNode elem (idxName name i) pd b st).2).1 = Val.consV h t
        rw [hd.1, ht.1]
      · show (decodeSeqGo (fun nm w stw => decodeNode elem nm pd w stw) name (i + 1) bt
            (decodeNode elem (idxName name i) pd b st).2).2.errs = st.errs
        rw [ht.2.1, hd.2.1]
      · show Preserves st
          (decodeSeqGo (fun nm w stw => decodeNode elem nm pd w stw) name (i + 1) bt
            (decodeNode elem (idxName name i) pd b st).2).2
          (footprint elem h (idxName name i) pd
            ++ chainKeys (fun nm w => footprint elem w nm pd) name (i + 1) t)
        exact preserves_comp hd.2.2 ht.2.2
    | nilV => simp [chainLen] at hlen
    | _ => simp [valChainAll] at hwb
  | nilV =>
    intro name i base st _ _ _ hwb hlen _ _ _
    cases base with
    | nilV => exact ⟨rfl, rfl, preserves_refl st _⟩
    | consV b bt => simp [chainLen] at hlen
    | _ => simp [valChainAll] at hwb
  | _ =>
    intro name i base st _ hwch _ _ _ _ _ _
    simp [valChainAll] at hwch

/-- The decode-of-encode round trip over the whole shape universe: on a
table that agrees with the encoded lines, the decoder recovers the
encoded value, adds no errors, and leaves every key outside the node's
footprint untouched. -/
theorem decode_encode (s : Shape) : ∀ (v : Val) (name : Chars) (pd : Nat)
    (prior : Val) (st : ScanSt),
    WfShape s = true → WfVal s v = true → InBounds s v = true →
    WfVal s prior = true → SepOk s v name pd = true →
    Agrees st (encodeNode s v name pd) →
    (decodeNode s name pd prior st).1 = v
    ∧ (decodeNode s name pd prior st).2.errs = st.errs
    ∧ Preserves st (decodeNode s name pd prior st).2 (footprint s v name pd) := by
  induction s with
  | u32S =>
    intro v name pd prior st hws hwv hib hwp hsep hag
    cases v
    case u32V x =>
      simp only [WfVal, decide_eq_true_eq] at hwv
      have hkv : kvsHas st.kvs name = true
          ∧ (kvsGet st.kvs name).val = ' ' :: natDec x :=
        hag (name, ' ' :: natDec x) (by simp [encodeNode])
      have hdec : decodeNode .u32S name pd prior st = (.u32V x, delSt st name) := by
        simp only [decodeNode, if_pos hkv.1, hkv.2, parseU32_val hwv]
      rw [hdec]
      exact ⟨rfl, rfl, preserves_del st name⟩
    all_goals simp [WfVal] at hwv
  | i64S =>
    intro v name pd prior st hws hwv hib hwp hsep hag
    cases v
    case i64V x =>
      simp only [WfVal, Bool.and_eq_true, decide_eq_true_eq] at hwv
      have hkv : kvsHas st.kvs name = true
          ∧ (kvsGet st.kvs name).val
              = ' ' :: (intDec x ++ (' ' :: '(' :: (ScaleFmt x 7 ++ [')']))) :=
        hag (name, ' ' :: (intDec x ++ (' ' :: '(' :: (ScaleFmt x 7 ++ [')']))))
          (by simp [encodeNode])
      have hdec : decodeNode .i64S name pd prior st = (.i64V x, delSt st name) := by
        simp only [decodeNode, if_pos hkv.1, hkv.2,
          parseI64_val hwv (' ' :: '(' :: (ScaleFmt x 7 ++ [')'])) paren_head]
      rw [hdec]
      exact ⟨rfl, rfl, preserves_del st name⟩
    all_goals simp [WfVal] at hwv
  | timeS =>
    intro v name pd prior st hws hwv hib hwp hsep hag
    cases v
    case timeV x =>
      simp only [WfVal, decide_eq_true_eq] at hwv
      have hkv : kvsHas st.kvs name = true
          ∧ (kvsGet st.kvs name).val = ' ' :: (natDec x ++ dateComment x) :=
        hag (name, ' ' :: (natDec x ++ dateComment x)) (by simp [encodeNode])
      have hdec : decodeNode .timeS name pd prior st = (.timeV x, delSt st name) := by
        simp only [decodeNode, if_pos hkv.1, hkv.2, parseU64_time hwv]
      rw [hdec]
      exact ⟨rfl, rfl, preserves_del st name⟩
    all_goals simp [WfVal] at hwv
  | enumS table =>
    intro v name pd prior st hws hwv hib hwp hsep hag
    cases v
    case enumV x =>
      simp only [WfVal, Bool.and_eq_true, decide_eq_true_eq] at hwv
      have hkv : kvsHas st.kvs name = true
          ∧ (kvsGet st.kvs name).val = ' ' :: enumStr table x :=
        hag (name, ' ' :: enumStr table x) (by simp [encodeNode])
      have htk : tokenOf (' ' :: enumStr table x) = enumStr table x :=
        tokenOf_space_lead (enumStr_not_space table x hws)
      have hdec : decodeNode (.enumS table) name pd prior st
          = (.enumV x, delSt st name) := by
        simp only [decodeNode, if_pos hkv.1, hkv.2, htk,
          enumParse_enumStr table x hws hwv]
      rw [hdec]
      exact ⟨rfl, rfl, preserves_del st name⟩
    all_goals simp [WfVal] at hwv
  | arrS n =>
    intro v name pd prior st hws hwv hib hwp hsep hag
    cases v
    case arrV bs =>
      simp only [WfVal, Bool.and_eq_true, beq_iff_eq, List.all_eq_true,
        decide_eq_true_eq] at hwv
      obtain ⟨hlen, hlt⟩ := hwv
      by_cases hshim : isShim n name = true
      · have hn32 : n = 32 := by
          have h2 := hshim
          simp only [isShim, Bool.and_eq_true, beq_iff_eq] at h2
          exact h2.1
        have hkv : kvsHas st.kvs (shimName name) = true
            ∧ (kvsGet st.kvs (shimName name)).val = ' ' :: strKeyEnc 0 bs :=
          hag (shimName name, ' ' :: strKeyEnc 0 bs)
            (by simp [encodeNode, if_pos hshim])
        have hdec : decodeNode (.arrS n) name pd prior st
            = (.arrV bs, delSt st (shimName name)) := by
          simp only [decodeNode, if_pos hshim, if_pos hkv.1, hkv.2,
            strKeyParse_enc (hlen.trans hn32) hlt]
          simp
        rw [hdec]
        refine ⟨rfl, rfl, ?_⟩
        have hfp : footprint (.arrS n) (.arrV bs) name pd = [shimName name] := by
          simp only [footprint, if_pos hshim]
        rw [hfp]
        exact preserves_del st (shimName name)
      · have hkv : kvsHas st.kvs name = true
            ∧ (kvsGet st.kvs name).val = ' ' :: hexEnc bs :=
          hag (name, ' ' :: hexEnc bs) (by simp [encodeNode, if_neg hshim])
        have hdec : decodeNode (.arrS n) name pd prior st
            = (.arrV bs, delSt st name) := by
          simp only [decodeNode, if_neg hshim, if_pos hkv.1, hkv.2,
            arrParse_enc hlen hlt]
        rw [hdec]
        refine ⟨rfl, rfl, ?_⟩
        have hfp : footprint (.arrS n) (.arrV bs) name pd = [name] := by
          simp only [footprint, if_neg hshim]
        rw [hfp]
        exact preserves_del st name
    all_goals simp [WfVal] at hwv
  | codeS n =>
    intro v name pd prior st hws hwv hib hwp hsep hag
    cases v
    case codeV bs =>
      simp only [WfVal, Bool.and_eq_true, beq_iff_eq, List.all_eq_true,
        decide_eq_true_eq] at hwv
      obtain ⟨hlen, hlt⟩ := hwv
      have hkv : kvsHas st.kvs name = true
          ∧ (kvsGet st.kvs name).val = ' ' :: renderCode bs :=
        hag (name, ' ' :: renderCode bs) (by simp [encodeNode])
      have hsp : ∀ c ∈ ([' '] : Chars), goIsSpace c = true := by
        intro c hc
        simp only [List.mem_singleton] at hc
        subst hc
        decide
      have hsc : scanCode n (' ' :: renderCode bs) = .ok bs := by
        rw [← hlen]
        exact scanCode_renderCode bs [' '] hlt hsp
      have hdec : decodeNode (.codeS n) name pd prior st
          = (.codeV bs, delSt st name) := by
        simp only [decodeNode, if_pos hkv.1, hkv.2, hsc]
      rw [hdec]
      exact ⟨rfl, rfl, preserves_del st name⟩
    all_goals simp [WfVal] at hwv
  | vecOS =>
    intro v name pd prior st hws hwv hib hwp hsep hag
    cases v
    case vecOV bs =>
      simp only [WfVal, List.all_eq_true, decide_eq_true_eq] at hwv
      have hkv : kvsHas st.kvs name = true
          ∧ (kvsGet st.kvs name).val = ' ' :: PrintVecOpaque bs :=
        hag (name, ' ' :: PrintVecOpaque bs) (by simp [encodeNode])
      by_cases hbe : bs = []
      · subst hbe
        have hdec : decodeNode .vecOS name pd prior st
            = (.vecOV [], delSt st name) := by
          simp only [decodeNode, if_pos hkv.1, hkv.2, vecOParse_empty.1,
            vecOParse_empty.2]
          simp
        rw [hdec]
        exact ⟨rfl, rfl, preserves_del st name⟩
      · have hdec : decodeNode .vecOS name pd prior st
            = (.vecOV bs, delSt st name) := by
          simp only [decodeNode, if_pos hkv.1, hkv.2, vecOParse_enc hbe hwv]
        rw [hdec]
        exact ⟨rfl, rfl, preserves_del st name⟩
    all_goals simp [WfVal] at hwv
  | acctS =>
    intro v name pd prior st hws hwv hib hwp hsep hag
    cases v
    case acctV ty key =>
      simp only [WfVal, Bool.and_eq_true, beq_iff_eq, List.all_eq_true,
        decide_eq_true_eq] at hwv
      obtain ⟨⟨hty, hklen⟩, hklt⟩ := hwv
      subst hty
      have hkv : kvsHas st.kvs name = true
          ∧ (kvsGet st.kvs name).val = ' ' :: strKeyEnc 0 key :=
        hag (name, ' ' :: strKeyEnc 0 key) (by simp [encodeNode])
      have hdec : decodeNode .acctS name pd prior st
          = (.acctV 0 key, delSt st name) := by
        simp only [decodeNode, if_pos hkv.1, hkv.2, strKeyParse_enc hklen hklt]
      rw [hdec]
      exact ⟨rfl, rfl, preserves_del st name⟩
    all_goals simp [WfVal] at hwv
  | ptrS inner ih =>
    intro v name pd prior st hws hwv hib hwp hsep hag
    cases v
    case ptrNilV =>
      have hkv : kvsHas st.kvs (name ++ presentSuffix (pd + 1)) = true
          ∧ (kvsGet st.kvs (name ++ presentSuffix (pd + 1))).val
              = ' ' :: ofStr "false" :=
        hag (name ++ presentSuffix (pd + 1), ' ' :: ofStr "false")
          (by simp [encodeNode])
      have htok : tokenOf (' ' :: ofStr "false") = ofStr "false" := by decide
      have hfne : (ofStr "false" : Chars) ≠ [] := by decide
      have hdec : decodeNode (.ptrS inner) name pd prior st
          = (.ptrNilV, delSt st name) := by
        simp only [decodeNode, hkv.2, htok]
        simp [hfne]
      rw [hdec]
      refine ⟨rfl, rfl, ?_⟩
      intro k hk
      simp only [footprint, List.mem_cons, List.not_mem_nil, or_false,
        not_or] at hk
      exact ⟨kvsGet_del_ne _ _ _ hk.2, kvsHas_del_ne _ _ _ hk.2⟩
    case ptrSomeV w =>
      have hkv : kvsHas st.kvs (name ++ presentSuffix (pd + 1)) = true
          ∧ (kvsGet st.kvs (name ++ presentSuffix (pd + 1))).val
              = ' ' :: ofStr "true" :=
        hag (name ++ presentSuffix (pd + 1), ' ' :: ofStr "true")
          (by simp [encodeNode])
      have hagi : Agrees st (encodeNode inner w name (pd + 1)) :=
        fun p hp => hag p (List.mem_cons_of_mem _ hp)
      have htok : tokenOf (' ' :: ofStr "true") = ofStr "true" := by decide
      have htne : (ofStr "true" : Chars) ≠ [] := by decide
      have htnf : (ofStr "true" : Chars) ≠ ofStr "false" := by decide
      obtain ⟨ip, hip, hstep⟩ : ∃ ip, WfVal inner ip = true
          ∧ decodeNode (.ptrS inner) name pd prior st
            = (.ptrSomeV (decodeNode inner name (pd + 1) ip st).1,
               delSt (decodeNode inner name (pd + 1) ip st).2 name) := by
        cases prior with
        | ptrSomeV x =>
          refine ⟨x, hwp, ?_⟩
          simp only [decodeNode, hkv.2, htok]
          simp [htne, htnf]
        | ptrNilV =>
          refine ⟨zeroVal inner, zeroVal_wf inner, ?_⟩
          simp only [decodeNode, hkv.2, htok]
          simp [htne, htnf]
        | _ => simp [WfVal] at hwp
      have hd := ih w name (pd + 1) ip st hws hwv hib hip hsep hagi
      rw [hstep]
      refine ⟨?_, ?_, ?_⟩
      · show Val.ptrSomeV (decodeNode inner name (pd + 1) ip st).1 = Val.ptrSomeV w
        rw [hd.1]
      · show (decodeNode inner name (pd + 1) ip st).2.errs = st.errs
        exact hd.2.1
      · intro k hk
        simp only [footprint, List.mem_cons, not_or] at hk
        have hfr := hd.2.2 k hk.2.2
        constructor
        · show kvsGet (kvsDel (decodeNode inner name (pd + 1) ip st).2.kvs name) k
            = kvsGet st.kvs k
          rw [kvsGet_del_ne _ _ _ hk.2.1, hfr.1]
        · show kvsHas (kvsDel (decodeNode inner name (pd + 1) ip st).2.kvs name) k
            = kvsHas st.kvs k
          rw [kvsHas_del_ne _ _ _ hk.2.1, hfr.2]
    all_goals simp [WfVal] at hwv
  | vecS bound elem ih =>
    intro v name pd prior st hws hwv hib hwp hsep hag
    cases v
    case vecV es =>
      simp only [WfShape, Bool.and_eq_true, decide_eq_true_eq] at hws
      obtain ⟨hbound, hwse⟩ := hws
      simp only [InBounds, Bool.and_eq_true, decide_eq_true_eq] at hib
      obtain ⟨hlen, hibes⟩ := hib
      simp only [SepOk, Bool.and_eq_true, List.all_eq_true] at hsep
      obtain ⟨⟨⟨hne, hkeys⟩, hss⟩, hsa⟩ := hsep
      have hnn : ¬(name = []) := by
        cases name with
        | nil => simp at hne
        | cons a l => simp
      have hlk : lenKeyEnc name = name ++ '.' :: ofStr "len" := by
        unfold lenKeyEnc
        rw [if_neg hnn, List.append_assoc]
        rfl
      have hkv : kvsHas st.kvs (lenKeyEnc name) = true
          ∧ (kvsGet st.kvs (lenKeyEnc name)).val = ' ' :: natDec (chainLen es) :=
        hag (lenKeyEnc name, ' ' :: natDec (chainLen es)) (by simp [encodeNode])
      have hgv : (kvsGet st.kvs (name ++ '.' :: ofStr "len")).val
          = ' ' :: natDec (chainLen es) := by
        rw [← hlk]
        exact hkv.2
      have hsz : chainLen es < 2 ^ 32 := lt_of_le_of_lt hlen hbound
      obtain ⟨ps, hpw, hstep⟩ : ∃ ps, valChainAll (WfVal elem) ps = true
          ∧ decodeNode (.vecS bound elem) name pd prior st
            = (.vecV (decodeSeqGo (fun nm w stw => decodeNode elem nm pd w stw)
                  name 0 (resizeChain ps (chainLen es) (zeroVal elem))
                  (delSt st name)).1,
               delSt (decodeSeqGo (fun nm w stw => decodeNode elem nm pd w stw)
                  name 0 (resizeChain ps (chainLen es) (zeroVal elem))
                  (delSt st name)).2 name) := by
        cases prior with
        | vecV es2 =>
          refine ⟨es2, hwp, ?_⟩
          simp only [decodeNode, hgv, parseU32_val hsz, Option.getD_some,
            if_pos hlen]
        | _ => simp [WfVal] at hwp
      have hbasewf : valChainAll (WfVal elem)
          (resizeChain ps (chainLen es) (zeroVal elem)) = true :=
        valChainAll_resize (zeroVal_wf elem) (chainLen es) ps hpw
      have hbaselen : chainLen (resizeChain ps (chainLen es) (zeroVal elem))
          = chainLen es := chainLen_resize (chainLen es) ps (zeroVal elem)
      have hagt0 : Agrees st
          (encodeSeqGo (fun nm w => encodeNode elem w nm pd) name 0 es) :=
        fun p hp => hag p (List.mem_cons_of_mem _ hp)
      have hagt : Agrees (delSt st name)
          (encodeSeqGo (fun nm w => encodeNode elem w nm pd) name 0 es) := by
        apply agrees_of_preserves hagt0 (preserves_del st name)
        intro p hp
        have hkm : p.1 ∈ chainKeys (fun nm w => encKeys elem w nm pd) name 0 es := by
          rw [← chainKeys_encodeSeq]
          exact List.mem_map_of_mem Prod.fst hp
        have hne2 := hkeys p.1 hkm
        simp only [Bool.not_eq_true', beq_eq_false_iff_ne] at hne2
        simp [hne2]
      have hseq := decodeSeq_encode elem pd (fun v2 nm2 => ih v2 nm2 pd) es name 0
        (resizeChain ps (chainLen es) (zeroVal elem)) (delSt st name)
        hwse hwv hibes hbasewf hbaselen hsa hss hagt
      rw [hstep]
      refine ⟨?_, ?_, ?_⟩
      · show Val.vecV (decodeSeqGo (fun nm w stw => decodeNode elem nm pd w stw)
            name 0 (resizeChain ps (chainLen es) (zeroVal elem))
            (delSt st name)).1 = Val.vecV es
        rw [hseq.1]
      · show (decodeSeqGo (fun nm w stw => decodeNode elem nm pd w stw) name 0
            (resizeChain ps (chainLen es) (zeroVal elem))
            (delSt st name)).2.errs = st.errs
        rw [hseq.2.1]
        rfl
      · have hp1 := preserves_comp (preserves_del st name)
          (preserves_comp hseq.2.2 (preserves_del
            (decodeSeqGo (fun nm w stw => decodeNode elem nm pd w stw) name 0
              (resizeChain ps (chainLen es) (zeroVal elem)) (delSt st name)).2
            name))
        apply preserves_mono ?hsub hp1
        intro k hk
        simp only [List.mem_append, List.mem_singleton] at hk
        simp only [footprint, List.mem_cons]
        rcases hk with h | h | h
        · exact Or.inr (Or.inr (Or.inl h))
        · exact Or.inr (Or.inr (Or.inr h))
        · exact Or.inr (Or.inr (Or.inl h))
    all_goals simp [WfVal] at hwv
  | fieldS fname sh rest ihs ihr =>
    intro v name pd prior st hws hwv hib hwp hsep hag
    cases v
    case fieldV a b =>
      simp only [WfShape, Bool.and_eq_true] at hws
      obtain ⟨⟨hid, hwss⟩, hwsr⟩ := hws
      simp only [WfVal, Bool.and_eq_true] at hwv
      obtain ⟨hwva, hwvb⟩ := hwv
      simp only [InBounds, Bool.and_eq_true] at hib
      obtain ⟨hiba, hibb⟩ := hib
      simp only [SepOk, Bool.and_eq_true, List.all_eq_true] at hsep
      obtain ⟨⟨hsepa, hsepb⟩, hkeysr⟩ := hsep
      obtain ⟨pa, pb, hpwa, hpwb, hstep⟩ : ∃ pa pb,
          WfVal sh pa = true ∧ WfVal rest pb = true
          ∧ decodeNode (.fieldS fname sh rest) name pd prior st
            = (.fieldV (decodeNode sh (childName name fname) pd pa st).1
                 (decodeNode rest name pd pb
                   (decodeNode sh (childName name fname) pd pa st).2).1,
               (decodeNode rest name pd pb
                 (decodeNode sh (childName name fname) pd pa st).2).2) := by
        cases prior with
        | fieldV x y =>
          simp only [WfVal, Bool.and_eq_true] at hwp
          exact ⟨x, y, hwp.1, hwp.2, rfl⟩
        | _ => simp [WfVal] at hwp
      have haga : Agrees st (encodeNode sh a (childName name fname) pd) :=
        agrees_append_left hag
      have hagb0 : Agrees st (encodeNode rest b name pd) :=
        agrees_append_right hag
      have hda := ihs a (childName name fname) pd pa st hwss hwva hiba hpwa
        hsepa haga
      have hagb : Agrees (decodeNode sh (childName name fname) pd pa st).2
          (encodeNode rest b name pd) := by
        apply agrees_of_preserves hagb0 hda.2.2
        intro p hp
        have hkm : p.1 ∈ encKeys rest b name pd := List.mem_map_of_mem Prod.fst hp
        have hni := hkeysr p.1 hkm
        simp only [notIn, List.all_eq_true, Bool.not_eq_true',
          beq_eq_false_iff_ne] at hni
        intro hcon
        exact hni p.1 hcon rfl
      have hdb := ihr b name pd pb (decodeNode sh (childName name fname) pd pa st).2
        hwsr hwvb hibb hpwb hsepb hagb
      rw [hstep]
      refine ⟨?_, ?_, ?_⟩
      · show Val.fieldV (decodeNode sh (childName name fname) pd pa st).1
            (decodeNode rest name pd pb
              (decodeNode sh (childName name fname) pd pa st).2).1
          = Val.fieldV a b
        rw [hda.1, hdb.1]
      · show (decodeNode rest name pd pb
            (decodeNode sh (childName name fname) pd pa st).2).2.errs = st.errs
        rw [hdb.2.1, hda.2.1]
      · show Preserves st (decodeNode rest name pd pb
            (decodeNode sh (childName name fname) pd pa st).2).2
          (footprint sh a (childName name fname) pd ++ footprint rest b name pd)
        exact preserves_comp hda.2.2 hdb.2.2
    all_goals simp [WfVal] at hwv
  | endS =>
    intro v name pd prior st _ hwv _ _ _ _
    cases v
    case endV => exact ⟨rfl, rfl, preserves_del st name⟩
    all_goals simp [WfVal] at hwv

/-! ### Character safety of everything the encoder emits -/

/-- Every character the whole key may contain. -/
def nameOk (name : Chars) : Bool := name.all keySafeChar

theorem keySafe_of_toNat {c : Char} (h10 : c.toNat ≠ 10) (h13 : c.toNat ≠ 13)
    (h58 : c.toNat ≠ 58) : keySafeChar c = true := by
  simp only [keySafeChar, Bool.and_eq_true, Bool.not_eq_true',
    decide_eq_false_iff_not]
  refine ⟨fun hc => h10 (by rw [hc]; decide), fun hc => h58 (by rw [hc]; decide),
    fun hc => h13 (by rw [hc]; decide)⟩

theorem valSafe_of_keySafe {c : Char} (h : keySafeChar c = true) :
    valSafeChar c = true := by
  simp only [keySafeChar, Bool.and_eq_true, Bool.not_eq_true',
    decide_eq_false_iff_not] at h
  simp only [valSafeChar, Bool.and_eq_true, Bool.not_eq_true',
    decide_eq_false_iff_not]
  exact ⟨h.1, h.2.2⟩

theorem valSafe_of_not_space {c : Char} (h : goIsSpace c = false) :
    valSafeChar c = true := by
  simp only [valSafeChar, Bool.and_eq_true, Bool.not_eq_true',
    decide_eq_false_iff_not]
  constructor
  · intro hc
    rw [hc] at h
    exact absurd h (by decide)
  · intro hc
    rw [hc] at h
    exact absurd h (by decide)

theorem digit_keySafe {c : Char} (h : isDig c = true) : keySafeChar c = true := by
  simp only [isDig, Bool.and_eq_true, decide_eq_true_eq] at h
  exact keySafe_of_toNat (by omega) (by omega) (by omega)

theorem identChar_keySafe {c : Char} (h : identChar c = true) :
    keySafeChar c = true := by
  simp only [identChar, isDig, Bool.or_eq_true, Bool.and_eq_true,
    decide_eq_true_eq] at h
  rcases h with ((h | h) | h) | h
  · exact keySafe_of_toNat (by omega) (by omega) (by omega)
  · exact keySafe_of_toNat (by omega) (by omega) (by omega)
  · exact keySafe_of_toNat (by omega) (by omega) (by omega)
  · subst h
    decide

theorem natDec_keySafe (n : Nat) : ∀ c ∈ natDec n, keySafeChar c = true :=
  fun c hc => digit_keySafe (natDec_digits n c hc)

theorem intDec_valSafe (v : Int) : ∀ c ∈ intDec v, valSafeChar c = true := by
  intro c hc
  unfold intDec at hc
  split at hc
  · rcases List.mem_cons.mp hc with rfl | hc
    · decide
    · exact valSafe_of_keySafe (natDec_keySafe _ c hc)
  · exact valSafe_of_keySafe (natDec_keySafe _ c hc)

theorem padTo_digits (w n : Nat) : ∀ c ∈ padTo w n, isDig c = true := by
  intro c hc
  unfold padTo at hc
  rcases List.mem_append.mp hc with hc | hc
  · rw [List.eq_of_mem_replicate hc]
    decide
  · exact natDec_digits n c hc

theorem pad3_digits (n : Nat) : ∀ c ∈ pad3 n, isDig c = true := by
  intro c hc
  unfold pad3 at hc
  rcases List.mem_append.mp hc with hc | hc
  · rw [List.eq_of_mem_replicate hc]
    decide
  · exact natDec_digits n c hc

theorem trimRightZeros_mem {c : Char} {cs : Chars}
    (h : c ∈ trimRightZeros cs) : c ∈ cs := by
  unfold trimRightZeros at h
  rw [List.mem_reverse] at h
  have := List.dropWhile_sublist (l := cs.reverse) (p := fun c => decide (c = '0'))
  exact List.mem_reverse.mp (this.mem h)

theorem scaleLoopGo_chars : ∀ (fuel t : Nat) (out : Chars),
    (∀ c ∈ out, isDig c = true ∨ c = ',') →
    ∀ c ∈ scaleLoopGo fuel t out, isDig c = true ∨ c = ',' := by
  intro fuel
  induction fuel with
  | zero => intro t out hout; exact hout
  | succ f ih =>
    intro t out hout c hc
    simp only [scaleLoopGo] at hc
    have hout1 : ∀ d ∈ (if out ≠ [] then ',' :: out else out),
        isDig d = true ∨ d = ',' := by
      intro d hd
      split at hd
      · rcases List.mem_cons.mp hd with rfl | hd
        · exact Or.inr rfl
        · exact hout d hd
      · exact hout d hd
    by_cases hk : t < 1000
    · rw [if_pos hk] at hc
      rcases List.mem_append.mp hc with hc | hc
      · exact Or.inl (natDec_digits t c hc)
      · exact hout1 c hc
    · rw [if_neg hk] at hc
      refine ih (t / 1000) _ ?_ c hc
      intro d hd
      rcases List.mem_append.mp hd with hd | hd
      · exact Or.inl (pad3_digits _ d hd)
      · exact hout1 d hd

theorem ScaleFmt_valSafe (v : Int) (e : Nat) :
    ∀ c ∈ ScaleFmt v e, valSafeChar c = true := by
  intro c hc
  unfold ScaleFmt at hc
  have hip : ∀ d ∈ scaleLoop (v.natAbs / exp10 e) [], isDig d = true ∨ d = ',' :=
    scaleLoopGo_chars _ _ [] (by simp)
  have hsigned : ∀ d ∈ (if v < 0 then '-' :: scaleLoop (v.natAbs / exp10 e) []
      else scaleLoop (v.natAbs / exp10 e) []), valSafeChar d = true := by
    intro d hd
    split at hd
    · rcases List.mem_cons.mp hd with rfl | hd
      · decide
      · rcases hip d hd with h | rfl
        · exact valSafe_of_keySafe (digit_keySafe h)
        · decide
    · rcases hip d hd with h | rfl
      · exact valSafe_of_keySafe (digit_keySafe h)
      · decide
  rcases List.mem_append.mp hc with hc | hc
  · split at hc
    · rcases List.mem_append.mp hc with hc | hc
      · exact hsigned c hc
      · have hc2 := trimRightZeros_mem hc
        rcases List.mem_cons.mp hc2 with rfl | hc2
        · decide
        · exact valSafe_of_keySafe (digit_keySafe (padTo_digits e _ c hc2))
    · exact hsigned c hc
  · rcases List.mem_cons.mp hc with rfl | hc
    · decide
    · exact valSafe_of_keySafe (natDec_keySafe e c hc)

theorem dateComment_valSafe (x : Nat) :
    ∀ c ∈ dateComment x, valSafeChar c = true := by
  intro c hc
  unfold dateComment at hc
  split at hc
  · simp at hc
  · rcases List.mem_cons.mp hc with rfl | hc
    · decide
    · rcases List.mem_cons.mp hc with rfl | hc
      · decide
      · rcases List.mem_append.mp hc with hc | hc
        · exact valSafe_of_keySafe (natDec_keySafe x c hc)
        · rcases List.mem_singleton.mp hc with rfl
          decide

theorem renderCode_valSafe {bs : List Nat} (h : ∀ b ∈ bs, b < 256) :
    ∀ c ∈ renderCode bs, valSafeChar c = true := by
  intro c hc
  unfold renderCode at hc
  exact valSafe_of_not_space
    (flatMap_renderByte_not_space (dropTrailZeros bs)
      (fun b hb => h b (dropTrailZeros_mem hb)) c hc)

theorem hexEnc_valSafe {bs : List Nat} (h : ∀ b ∈ bs, b < 256) :
    ∀ c ∈ hexEnc bs, valSafeChar c = true :=
  fun c hc => valSafe_of_not_space (hexEnc_not_space h c hc)

theorem strKeyEnc_valSafe {ty : Nat} {key : List Nat} (h : ∀ b ∈ key, b < 256) :
    ∀ c ∈ strKeyEnc ty key, valSafeChar c = true :=
  fun c hc => valSafe_of_not_space (strKeyEnc_not_space h c hc)

theorem PrintVecOpaque_valSafe {bs : List Nat} (h : ∀ b ∈ bs, b < 256) :
    ∀ c ∈ PrintVecOpaque bs, valSafeChar c = true := by
  intro c hc
  unfold PrintVecOpaque at hc
  split at hc
  · have hv : ∀ c ∈ ofStr "0 bytes", valSafeChar c = true := by decide
    exact hv c hc
  · exact hexEnc_valSafe h c hc

theorem enumStr_valSafe (table : List (Int × Chars)) (x : Int)
    (hwf : WfShape (.enumS table) = true) :
    ∀ c ∈ enumStr table x, valSafeChar c = true :=
  fun c hc => valSafe_of_not_space (enumStr_not_space table x hwf c hc)

theorem nameOk_append {a b : Chars} (ha : nameOk a = true) (hb : nameOk b = true) :
    nameOk (a ++ b) = true := by
  simp only [nameOk, List.all_append, Bool.and_eq_true]
  exact ⟨ha, hb⟩

theorem nameOk_child {name f : Chars} (hn : nameOk name = true)
    (hf : identName f = true) : nameOk (childName name f) = true := by
  have hfo : nameOk f = true := by
    simp only [nameOk, List.all_eq_true]
    intro c hc
    cases f with
    | nil => simp at hc
    | cons d ds =>
      simp only [identName, Bool.and_eq_true, List.all_eq_true] at hf
      exact identChar_keySafe (hf.2 c hc)
  unfold childName
  split
  · exact hfo
  · refine nameOk_append hn ?_
    simp only [nameOk, List.all_cons, Bool.and_eq_true]
    exact ⟨by decide, hfo⟩

theorem nameOk_idx {name : Chars} (i : Nat) (hn : nameOk name = true) :
    nameOk (idxName name i) = true := by
  refine nameOk_append hn ?_
  simp only [nameOk, List.all_cons, Bool.and_eq_true, List.all_append]
  refine ⟨by decide, ?_, ?_⟩
  · simp only [List.all_eq_true]
    exact natDec_keySafe i
  · decide

theorem nameOk_present {name : Chars} (d : Nat) (hn : nameOk name = true) :
    nameOk (name ++ presentSuffix d) = true := by
  refine nameOk_append hn ?_
  simp only [presentSuffix, nameOk, List.all_cons, Bool.and_eq_true,
    List.all_append, List.all_eq_true]
  refine ⟨by decide, ?_, ?_⟩
  · intro c hc
    rcases List.mem_flatten.mp hc with ⟨l, hl, hcl⟩
    rw [List.eq_of_mem_replicate hl] at hcl
    have hall : ∀ c ∈ ofStr "_inner", keySafeChar c = true := by decide
    exact hall c hcl
  · intro c hc
    have hall : ∀ c ∈ ofStr "_present", keySafeChar c = true := by decide
    exact hall c hc

theorem nameOk_shim {name : Chars} (hn : nameOk name = true) :
    nameOk (shimName name) = true := by
  unfold shimName
  refine nameOk_append ?_ (by decide)
  simp only [nameOk, List.all_eq_true] at hn ⊢
  intro c hc
  exact hn c (List.mem_of_mem_take hc)

theorem nameOk_lenKey {name : Chars} (hn : nameOk name = true) :
    nameOk (lenKeyEnc name) = true := by
  unfold lenKeyEnc
  refine nameOk_append (nameOk_append hn ?_) (by decide)
  split
  · decide
  · decide

/-- Safety of the encoded element lines of a sequence. -/
theorem encodeSeq_safe (elem : Shape) (pd : Nat)
    (IH : ∀ (v : Val) (name : Chars), WfVal elem v = true → nameOk name = true →
      ∀ p ∈ encodeNode elem v name pd,
        (∀ c ∈ p.1, keySafeChar c = true) ∧ (∀ c ∈ p.2, valSafeChar c = true)) :
    ∀ (es : Val) (name : Chars) (i : Nat),
    valChainAll (WfVal elem) es = true → nameOk name = true →
    ∀ p ∈ encodeSeqGo (fun nm w => encodeNode elem w nm pd) name i es,
      (∀ c ∈ p.1, keySafeChar c = true) ∧ (∀ c ∈ p.2, valSafeChar c = true) := by
  intro es
  induction es with
  | consV h t ih1 ih2 =>
    intro name i hch hn p hp
    simp only [valChainAll, Bool.and_eq_true] at hch
    rcases List.mem_append.mp hp with hp | hp
    · exact IH h (idxName name i) hch.1 (nameOk_idx i hn) p hp
    · exact ih2 name (i + 1) hch.2 hn p hp
  | nilV => intro name i _ _ p hp; simp [encodeSeqGo] at hp
  | _ => intro name i hch _ p hp; simp [valChainAll] at hch

/-- Every line the encoder emits has a newline/colon/CR-free key and a
newline/CR-free value. -/
theorem encode_safe (s : Shape) : ∀ (v : Val) (name : Chars) (pd : Nat),
    WfShape s = true → WfVal s v = true → nameOk name = true →
    ∀ p ∈ encodeNode s v name pd,
      (∀ c ∈ p.1, keySafeChar c = true) ∧ (∀ c ∈ p.2, valSafeChar c = true) := by
  induction s with
  | u32S =>
    intro v name pd _ hwv hn p hp
    cases v
    case u32V x =>
      simp only [encodeNode, List.mem_singleton] at hp
      subst hp
      refine ⟨by simpa [nameOk, List.all_eq_true] using hn, ?_⟩
      intro c hc
      rcases List.mem_cons.mp hc with rfl | hc
      · decide
      · exact valSafe_of_keySafe (natDec_keySafe _ c hc)
    all_goals simp [WfVal] at hwv
  | i64S =>
    intro v name pd _ hwv hn p hp
    cases v
    case i64V x =>
      simp only [encodeNode, List.mem_singleton] at hp
      subst hp
      refine ⟨by simpa [nameOk, List.all_eq_true] using hn, ?_⟩
      intro c hc
      rcases List.mem_cons.mp hc with rfl | hc
      · decide
      rcases List.mem_append.mp hc with hc | hc
      · exact intDec_valSafe x c hc
      rcases List.mem_cons.mp hc with rfl | hc
      · decide
      rcases List.mem_cons.mp hc with rfl | hc
      · decide
      rcases List.mem_append.mp hc with hc | hc
      · exact ScaleFmt_valSafe x 7 c hc
      · rcases List.mem_singleton.mp hc with rfl
        decide
    all_goals simp [WfVal] at hwv
  | timeS =>
    intro v name pd _ hwv hn p hp
    cases v
    case timeV x =>
      simp only [encodeNode, List.mem_singleton] at hp
      subst hp
      refine ⟨by simpa [nameOk, List.all_eq_true] using hn, ?_⟩
      intro c hc
      rcases List.mem_cons.mp hc with rfl | hc
      · decide
      rcases List.mem_append.mp hc with hc | hc
      · exact valSafe_of_keySafe (natDec_keySafe _ c hc)
      · exact dateComment_valSafe x c hc
    all_goals simp [WfVal] at hwv
  | enumS table =>
    intro v name pd hws hwv hn p hp
    cases v
    case enumV x =>
      simp only [encodeNode, List.mem_singleton] at hp
      subst hp
      refine ⟨by simpa [nameOk, List.all_eq_true] using hn, ?_⟩
      intro c hc
      rcases List.mem_cons.mp hc with rfl | hc
      · decide
      · exact enumStr_valSafe table x hws c hc
    all_goals simp [WfVal] at hwv
  | arrS n =>
    intro v name pd _ hwv hn p hp
    cases v
    case arrV bs =>
      simp only [WfVal, Bool.and_eq_true, beq_iff_eq, List.all_eq_true,
        decide_eq_true_eq] at hwv
      by_cases hshim : isShim n name = true
      · simp only [encodeNode, if_pos hshim, List.mem_singleton] at hp
        subst hp
        refine ⟨by simpa [nameOk, List.all_eq_true] using nameOk_shim hn, ?_⟩
        intro c hc
        rcases List.mem_cons.mp hc with rfl | hc
        · decide
        · exact strKeyEnc_valSafe hwv.2 c hc
      · simp only [encodeNode, if_neg hshim, List.mem_singleton] at hp
        subst hp
        refine ⟨by simpa [nameOk, List.all_eq_true] using hn, ?_⟩
        intro c hc
        rcases List.mem_cons.mp hc with rfl | hc
        · decide
        · exact hexEnc_valSafe hwv.2 c hc
    all_goals simp [WfVal] at hwv
  | codeS n =>
    intro v name pd _ hwv hn p hp
    cases v
    case codeV bs =>
      simp only [WfVal, Bool.and_eq_true, beq_iff_eq, List.all_eq_true,
        decide_eq_true_eq] at hwv
      simp only [encodeNode, List.mem_singleton] at hp
      subst hp
      refine ⟨by simpa [nameOk, List.all_eq_true] using hn, ?_⟩
      intro c hc
      rcases List.mem_cons.mp hc with rfl | hc
      · decide
      · exact renderCode_valSafe hwv.2 c hc
    all_goals simp [WfVal] at hwv
  | vecOS =>
    intro v name pd _ hwv hn p hp
    cases v
    case vecOV bs =>
      simp only [WfVal, List.all_eq_true, decide_eq_true_eq] at hwv
      simp only [encodeNode, List.mem_singleton] at hp
      subst hp
      refine ⟨by simpa [nameOk, List.all_eq_true] using hn, ?_⟩
      intro c hc
      rcases List.mem_cons.mp hc with rfl | hc
      · decide
      · exact PrintVecOpaque_valSafe hwv c hc
    all_goals simp [WfVal] at hwv
  | acctS =>
    intro v name pd _ hwv hn p hp
    cases v
    case acctV ty key =>
      simp only [WfVal, Bool.and_eq_true, beq_iff_eq, List.all_eq_true,
        decide_eq_true_eq] at hwv
      simp only [encodeNode, List.mem_singleton] at hp
      subst hp
      refine ⟨by simpa [nameOk, List.all_eq_true] using hn, ?_⟩
      intro c hc
      rcases List.mem_cons.mp hc with rfl | hc
      · decide
      · exact strKeyEnc_valSafe hwv.2 c hc
    all_goals simp [WfVal] at hwv
  | ptrS inner ih =>
    intro v name pd hws hwv hn p hp
    have hpk : ∀ c ∈ name ++ presentSuffix (pd + 1), keySafeChar c = true := by
      intro c hc
      have h2 := nameOk_present (pd + 1) hn
      simp only [nameOk, List.all_eq_true] at h2
      exact h2 c hc
    cases v
    case ptrNilV =>
      simp only [encodeNode, List.mem_singleton] at hp
      subst hp
      refine ⟨hpk, ?_⟩
      intro c hc
      have hv : ∀ c ∈ ' ' :: ofStr "false", valSafeChar c = true := by decide
      exact hv c hc
    case ptrSomeV w =>
      rcases List.mem_cons.mp hp with rfl | hp
      · refine ⟨hpk, ?_⟩
        intro c hc
        have hv : ∀ c ∈ ' ' :: ofStr "true", valSafeChar c = true := by decide
        exact hv c hc
      · exact ih w name (pd + 1) hws hwv hn p hp
    all_goals simp [WfVal] at hwv
  | vecS bound elem ih =>
    intro v name pd hws hwv hn p hp
    simp only [WfShape, Bool.and_eq_true, decide_eq_true_eq] at hws
    cases v
    case vecV es =>
      rcases List.mem_cons.mp hp with rfl | hp
      · refine ⟨by simpa [nameOk, List.all_eq_true] using nameOk_lenKey hn, ?_⟩
        intro c hc
        rcases List.mem_cons.mp hc with rfl | hc
        · decide
        · exact valSafe_of_keySafe (natDec_keySafe _ c hc)
      · exact encodeSeq_safe elem pd (fun v2 nm2 => ih v2 nm2 pd hws.2) es name 0
          hwv hn p hp
    all_goals simp [WfVal] at hwv
  | fieldS fname sh rest ihs ihr =>
    intro v name pd hws hwv hn p hp
    simp only [WfShape, Bool.and_eq_true] at hws
    cases v
    case fieldV a b =>
      simp only [WfVal, Bool.and_eq_true] at hwv
      rcases List.mem_append.mp hp with hp | hp
      · exact ihs a (childName name fname) pd hws.1.2 hwv.1
          (nameOk_child hn hws.1.1) p hp
      · exact ihr b name pd hws.2 hwv.2 hn p hp
    all_goals simp [WfVal] at hwv
  | endS =>
    intro v name pd _ _ _ p hp
    simp [encodeNode] at hp

/-- Splitting the emitted document into lines recovers the `key: value`
lines (plus the empty line after the final newline). -/
theorem splitNl_doc (pairs : List (Chars × Chars)) :
    (∀ p ∈ pairs, (∀ c ∈ p.1, keySafeChar c = true)
      ∧ (∀ c ∈ p.2, valSafeChar c = true)) →
    splitNl ((pairs.map (fun kv => kv.1 ++ ':' :: kv.2 ++ ['\n'])).flatten)
      = pairs.map (fun p => p.1 ++ ':' :: p.2) ++ [[]] := by
  induction pairs with
  | nil => intro _; rfl
  | cons p ps ih =>
    intro h
    have hp := h p (by simp)
    have hline : (p.1 ++ ':' :: p.2 ++ ['\n'])
        ++ (ps.map (fun kv => kv.1 ++ ':' :: kv.2 ++ ['\n'])).flatten
        = (p.1 ++ ':' :: p.2)
          ++ '\n' :: (ps.map (fun kv => kv.1 ++ ':' :: kv.2 ++ ['\n'])).flatten := by
      simp [List.append_assoc]
    have hnn : ∀ c ∈ p.1 ++ ':' :: p.2, ¬(c = '\n') := by
      intro c hc hcon
      rcases List.mem_append.mp hc with hc | hc
      · have := hp.1 c hc
        rw [hcon] at this
        exact absurd this (by decide)
      · rcases List.mem_cons.mp hc with rfl | hc
        · exact absurd hcon (by decide)
        · have := hp.2 c hc
          rw [hcon] at this
          exact absurd this (by decide)
    simp only [List.map_cons, List.flatten_cons]
    rw [hline, splitNl_line _ _ hnn, ih (fun q hq => h q (by simp [hq]))]
    rfl

/-- The full round trip through the textual document: reading the lines
`XdrToTxrep` emitted and scanning them back recovers the tree with no
errors, for any starting tree of the shape.  The `Nodup` hypothesis is
the key-uniqueness invariant of spec section 3. -/
theorem fromTxrep_toTxrep (s : Shape) (v t0 : Val) (name : Chars)
    (hws : WfShape s = true) (hwv : WfVal s v = true)
    (hib : InBounds s v = true) (hwt : WfVal s t0 = true)
    (hsep : SepOk s v name 0 = true) (hnm : nameOk name = true)
    (hnd : ((encodeNode s v name 0).map Prod.fst).Nodup) :
    XdrFromTxrep (XdrToTxrep name s v) name s t0 = (v, []) := by
  have hsafe := encode_safe s v name 0 hws hwv hnm
  have hsplit := splitNl_doc (encodeNode s v name 0) hsafe
  have hread := readKvsGo_pairs (encodeNode s v name 0) 0 ⟨[], []⟩ hsafe
  have hag : Agrees ⟨putAll [] (encodeNode s v name 0) 0, []⟩
      (encodeNode s v name 0) := by
    intro p hp
    exact putAll_mem (encodeNode s v name 0) [] 0 p.1 p.2 hnd hp
  have hd := decode_encode s v name 0 t0 ⟨putAll [] (encodeNode s v name 0) 0, []⟩
    hws hwv hib hwt hsep hag
  unfold XdrFromTxrep XdrToTxrep
  rw [hsplit, hread]
  show (_, _) = (v, [])
  rw [hd.1]
  have herr := hd.2.1
  rw [herr]

/-! ### Helpers for the per-claim theorems -/

theorem splitColon_none (l : Chars) (h : ∀ c ∈ l, ¬(c = ':')) :
    splitColon l = none := by
  induction l with
  | nil => rfl
  | cons c cs ih =>
    show (if c = ':' then some ([], cs)
      else match splitColon cs with
        | some kv => some (c :: kv.1, kv.2)
        | none => none) = none
    rw [if_neg (h c (by simp)), ih fun d hd => h d (by simp [hd])]

theorem resizeChain_zero (x z : Val) : resizeChain x 0 z = .nilV := by
  cases x <;> rfl

/-- The first pair inserted is found at line `n + 1` when its key is not
overwritten later. -/
theorem putAll_head (p : Chars × Chars) (ps : List (Chars × Chars)) (m : Kvs)
    (n : Nat) (hnot : p.1 ∉ ps.map Prod.fst) :
    kvsGet (putAll m (p :: ps) n) p.1 = ⟨n + 1, p.2⟩
      ∧ kvsHas (putAll m (p :: ps) n) p.1 = true := by
  have hframe := putAll_not_mem ps (kvsPut m p.1 ⟨n + 1, p.2⟩) (n + 1) p.1 hnot
  unfold putAll
  rw [hframe.1, hframe.2, kvsGet_put, kvsHas_put]
  exact ⟨rfl, rfl⟩

/-- The presence rule the decoder actually implements (part_001:434-449):
a nonempty token of the `.present` value decides (false exactly for the
literal token `false`); with an empty token, a table entry under the bare
field name forces presence, else any key extending the dotted prefix
does, else the field is absent. -/
def implPresence (st : ScanSt) (name : Chars) (pd : Nat) : Bool :=
  let tok := tokenOf (kvsGet st.kvs (name ++ presentSuffix (pd + 1))).val
  if tok ≠ [] then !(tok == ofStr "false")
  else if kvsHas st.kvs name then true
  else st.kvs.any (fun p => (name ++ ['.']).isPrefixOf p.1)

/-! ### The claim theorems -/

/-- C5 (amended): the optional-field presence rule of the decoder.  A
nonempty `.present` token decides presence; an empty token falls back
first to the bare field name being a key of the table (this clause is
absent from the claim), then to the dotted-prefix search; the inner node
is scanned exactly when presence is true. -/
theorem txrep_optional_presence (inner : Shape) (name : Chars) (pd : Nat)
    (st : ScanSt) :
    (implPresence st name pd = false →
      decodeNode (.ptrS inner) name pd .ptrNilV st = (.ptrNilV, delSt st name))
    ∧ (implPresence st name pd = true →
        ∃ w st2, decodeNode (.ptrS inner) name pd .ptrNilV st
          = (.ptrSomeV w, delSt st2 name))
    ∧ (tokenOf (kvsGet st.kvs (name ++ presentSuffix (pd + 1))).val = [] →
        kvsHas st.kvs name = true → implPresence st name pd = true)
    ∧ (tokenOf (kvsGet st.kvs (name ++ presentSuffix (pd + 1))).val = [] →
        kvsHas st.kvs name = false →
        implPresence st name pd
          = st.kvs.any (fun p => (name ++ ['.']).isPrefixOf p.1)) := by
  have hTF : ¬((ofStr "true" : Chars) = ofStr "false") := by decide
  have hTne : ¬((ofStr "true" : Chars) = []) := by decide
  have hFne : ¬((ofStr "false" : Chars) = []) := by decide
  refine ⟨?_, ?_, ?_, ?_⟩
  · intro hip
    simp only [implPresence] at hip
    by_cases htk : tokenOf (kvsGet st.kvs (name ++ presentSuffix (pd + 1))).val = []
    · rw [if_neg (by simp [htk])] at hip
      by_cases hb : kvsHas st.kvs name = true
      · rw [if_pos hb] at hip
        cases hip
      · rw [if_neg hb] at hip
        simp only [decodeNode, htk]
        simp [hb, hip]
    · rw [if_pos htk] at hip
      simp only [Bool.not_eq_false', beq_iff_eq] at hip
      simp only [decodeNode, hip]
      simp [hFne]
  · intro hip
    simp only [implPresence] at hip
    by_cases htk : tokenOf (kvsGet st.kvs (name ++ presentSuffix (pd + 1))).val = []
    · rw [if_neg (by simp [htk])] at hip
      refine ⟨(decodeNode inner name (pd + 1) (zeroVal inner) st).1,
        (decodeNode inner name (pd + 1) (zeroVal inner) st).2, ?_⟩
      by_cases hb : kvsHas st.kvs name = true
      · simp only [decodeNode, htk]
        simp [hb, hTF, hTne]
      · rw [if_neg hb] at hip
        simp only [decodeNode, htk]
        simp [hb, hip, hTF, hTne]
    · rw [if_pos htk] at hip
      simp only [Bool.not_eq_true', beq_eq_false_iff_ne] at hip
      by_cases htr : tokenOf (kvsGet st.kvs (name ++ presentSuffix (pd + 1))).val
          = ofStr "true"
      · refine ⟨(decodeNode inner name (pd + 1) (zeroVal inner) st).1,
          (decodeNode inner name (pd + 1) (zeroVal inner) st).2, ?_⟩
        simp only [decodeNode, htr]
        simp [hTF, hTne]
      · refine ⟨(decodeNode inner name (pd + 1) (zeroVal inner)
            (report st (kvsGet st.kvs (name ++ presentSuffix (pd + 1))).line
              (msgMustBool (name ++ presentSuffix (pd + 1))
                (tokenOf (kvsGet st.kvs
                  (name ++ presentSuffix (pd + 1))).val)))).1,
          (decodeNode inner name (pd + 1) (zeroVal inner)
            (report st (kvsGet st.kvs (name ++ presentSuffix (pd + 1))).line
              (msgMustBool (name ++ presentSuffix (pd + 1))
                (tokenOf (kvsGet st.kvs
                  (name ++ presentSuffix (pd + 1))).val)))).2, ?_⟩
        simp only [decodeNode]
        rw [if_pos htk, if_neg hip, if_neg htr]
        simp
  · intro htok hb
    simp [implPresence, htok, hb]
  · intro htok hbf
    simp [implPresence, htok, hbf]

/-- C5 (counterexample): a table holding only the bare field name (no
`.present` key, no dotted key) makes the decoder treat the optional
field as present and scan the inner node, where the claim's rule says
presence defaults to false. -/
theorem bare_name_presence_counterexample :
    (decodeNode (.ptrS .u32S) ('x' :: []) 0 .ptrNilV
        ⟨[(('x' :: []), ⟨1, ' ' :: '5' :: []⟩)], []⟩).1
      = .ptrSomeV (.u32V 5)
    ∧ implPresence ⟨[(('x' :: []), ⟨1, ' ' :: '5' :: []⟩)], []⟩ ('x' :: []) 0 = true
    ∧ kvsHas ([(('x' :: []), ⟨1, ' ' :: '5' :: []⟩)] : Kvs)
        (('x' :: []) ++ presentSuffix 1) = false
    ∧ ([(('x' :: []), ⟨1, ' ' :: '5' :: []⟩)] : Kvs).any
        (fun p => (('x' :: []) ++ ['.']).isPrefixOf p.1) = false := by
  decide

/-- C4 (amended): the source-account shim.  With the shim trigger, the
decoder reads only the shortened `sourceAccount` key (a strkey-valued
line there sets the 32 bytes), the encoder emits exactly the shortened
line, and when the shortened key is absent the node is left untouched —
whatever lines, the legacy long key included, the table holds. -/
theorem sourceAccount_shim_decode (n : Nat) (name : Chars) (bs : List Nat)
    (prior : Val) (st : ScanSt) (pd : Nat)
    (hshim : isShim n name = true)
    (hlen : bs.length = 32) (hlt : ∀ b ∈ bs, b < 256) :
    (kvsHas st.kvs (shimName name) = true →
      (kvsGet st.kvs (shimName name)).val = ' ' :: strKeyEnc 0 bs →
      decodeNode (.arrS n) name pd prior st = (.arrV bs, delSt st (shimName name)))
    ∧ encodeNode (.arrS n) (.arrV bs) name pd
        = [(shimName name, ' ' :: strKeyEnc 0 bs)]
    ∧ (kvsHas st.kvs (shimName name) = false →
        decodeNode (.arrS n) name pd prior st = (prior, st)) := by
  refine ⟨?_, ?_, ?_⟩
  · intro h1 h2
    simp only [decodeNode, if_pos hshim, if_pos h1, h2, strKeyParse_enc hlen hlt]
    simp
  · simp [encodeNode, if_pos hshim]
  · intro habs
    simp only [decodeNode, if_pos hshim]
    rw [if_neg (by simp [habs])]

/-- C4 (witness): a concrete legacy-named 32-byte node decoded from a
table holding the shortened strkey line. -/
theorem sourceAccount_shim_decode_witness :
    decodeNode (.arrS 32) (ofStr "tx.sourceAccountEd25519") 0
        (.arrV (List.replicate 32 0))
        ⟨[(shimName (ofStr "tx.sourceAccountEd25519"),
           ⟨1, ' ' :: strKeyEnc 0 (List.replicate 32 1)⟩)], []⟩
      = (.arrV (List.replicate 32 1),
         delSt ⟨[(shimName (ofStr "tx.sourceAccountEd25519"),
            ⟨1, ' ' :: strKeyEnc 0 (List.replicate 32 1)⟩)], []⟩
           (shimName (ofStr "tx.sourceAccountEd25519"))) :=
  (sourceAccount_shim_decode 32 (ofStr "tx.sourceAccountEd25519")
    (List.replicate 32 1) (.arrV (List.replicate 32 0)) _ 0
    (by decide) (by decide) (by decide)).1 (by decide) (by decide)

/-- C4 (counterexample): a table holding only the legacy
`tx.sourceAccountEd25519` hex line is never read — the decoder looks the
shortened key up, finds nothing and returns the prior bytes with the
table untouched, so the legacy document does not decode to the hex
bytes. -/
theorem legacy_sourceAccountEd25519_counterexample :
    decodeNode (.arrS 32) (ofStr "tx.sourceAccountEd25519") 0
        (.arrV (List.replicate 32 0))
        ⟨[(ofStr "tx.sourceAccountEd25519",
           ⟨1, ' ' :: hexEnc (List.replicate 32 1)⟩)], []⟩
      = (.arrV (List.replicate 32 0),
         ⟨[(ofStr "tx.sourceAccountEd25519",
            ⟨1, ' ' :: hexEnc (List.replicate 32 1)⟩)], []⟩)
    ∧ ¬((.arrV (List.replicate 32 0) : Val) = .arrV (List.replicate 32 1)) := by
  decide

/-- The `", "`-separated join of the helped-enum line's loop
(part_001:204-212). -/
def commaJoin : List Chars → Chars
  | [] => []
  | [s] => s
  | s :: rest => s ++ ',' :: ' ' :: commaJoin rest

/-- The helped-enum line (part_001:201-216): `name: symbol (s1, s2, ...)`
with the symbols in `iter`, the order Go's map range happens to produce. -/
def emitEnumHelp (name : Chars) (table : List (Int × Chars)) (x : Int)
    (iter : List Chars) : Chars :=
  name ++ ':' :: ' ' :: (enumStr table x ++ ' ' :: '('
    :: (commaJoin iter ++ [')']))

/-- C7 (amended): the helped-enum line lists every symbol of the table
exactly once (with multiplicity), in whatever order the map iteration
produced — the order is a permutation of the table, not necessarily
ascending. -/
theorem enum_help_line_perm (name : Chars) (table : List (Int × Chars)) (x : Int)
    (iter : List Chars) (hperm : iter.Perm (table.map Prod.snd)) :
    (iter.length = table.length ∧ ∀ s, s ∈ iter ↔ s ∈ table.map Prod.snd)
    ∧ emitEnumHelp name table x iter
      = name ++ ':' :: ' ' :: (enumStr table x ++ ' ' :: '('
          :: (commaJoin iter ++ [')'])) :=
  ⟨⟨hperm.length_eq.trans (List.length_map table Prod.snd),
    fun _ => hperm.mem_iff⟩, rfl⟩

/-- C7 (witness): a concrete two-symbol table and iteration order. -/
theorem enum_help_line_perm_witness :
    ((ofStr "B" :: ofStr "A" :: []).length
        = ([((0 : Int), ofStr "A"), ((1 : Int), ofStr "B")]).length
      ∧ ∀ s, s ∈ (ofStr "B" :: ofStr "A" :: [])
        ↔ s ∈ ([((0 : Int), ofStr "A"), ((1 : Int), ofStr "B")]).map Prod.snd)
    ∧ emitEnumHelp [] [((0 : Int), ofStr "A"), ((1 : Int), ofStr "B")] 0
        (ofStr "B" :: ofStr "A" :: [])
      = [] ++ ':' :: ' ' :: (enumStr [((0 : Int), ofStr "A"), ((1 : Int), ofStr "B")] 0
          ++ ' ' :: '(' :: (commaJoin (ofStr "B" :: ofStr "A" :: []) ++ [')'])) :=
  enum_help_line_perm [] [((0 : Int), ofStr "A"), ((1 : Int), ofStr "B")] 0
    (ofStr "B" :: ofStr "A" :: []) (by decide)

/-- C7 (counterexample): the reversed iteration order is a valid map
iteration (a permutation of the table) and yields a line different from
the ascending-order line, so the emitted order is not always
ascending. -/
theorem enum_help_order_counterexample :
    ((ofStr "B" :: ofStr "A" :: []).Perm
      (([((0 : Int), ofStr "A"), ((1 : Int), ofStr "B")]).map Prod.snd))
    ∧ ¬(emitEnumHelp [] [((0 : Int), ofStr "A"), ((1 : Int), ofStr "B")] 0
          (ofStr "B" :: ofStr "A" :: [])
        = emitEnumHelp [] [((0 : Int), ofStr "A"), ((1 : Int), ofStr "B")] 0
          (ofStr "A" :: ofStr "B" :: [])) := by
  decide

/-- C8 (amended): the four behaviors of `scanCode`.  In-range input that
fits is zero-padded; whitespace before the buffer is full ends the scan;
once the buffer is exactly full the outcome depends only on what
follows (whitespace or end succeed, anything else is the too-long
error); and an unescaped out-of-range rune ends the token read the same
way whitespace does — the invalid-character error the loop builds is
overwritten by the trailing read, so it never surfaces. -/
theorem scanCode_spec :
    (∀ (n : Nat) (pre : Chars), (∀ c ∈ pre, codeLit c = true) → pre.length ≤ n →
      scanCode n pre = .ok (pre.map Char.toNat
        ++ List.replicate (n - pre.length) 0))
    ∧ (∀ (n : Nat) (pre : Chars) (c : Char) (post : Chars), pre ≠ [] →
        (∀ d ∈ pre, codeLit d = true) → pre.length < n → goIsSpace c = true →
        scanCode n (pre ++ c :: post)
          = (if trailCheck post then
              .ok (pre.map Char.toNat ++ List.replicate (n - pre.length) 0)
            else .error .tooLong))
    ∧ (∀ (n : Nat) (pre post : Chars), pre ≠ [] →
        (∀ d ∈ pre, codeLit d = true) → pre.length = n →
        scanCode n (pre ++ post)
          = (if trailCheck post then .ok (pre.map Char.toNat)
            else .error .tooLong))
    ∧ (∀ (n : Nat) (pre : Chars) (c : Char) (post : Chars), pre ≠ [] →
        (∀ d ∈ pre, codeLit d = true) → pre.length < n → goIsSpace c = false →
        c.toNat ≤ 32 ∨ 127 ≤ c.toNat →
        scanCode n (pre ++ c :: post)
          = (if trailCheck post then
              .ok (pre.map Char.toNat ++ List.replicate (n - pre.length) 0)
            else .error .tooLong)) :=
  ⟨scanCode_all_lit, scanCode_space_term, scanCode_full, scanCode_invalid_rune⟩

/-- C8 (counterexample): an unescaped byte outside `[0x21,0x7e]` (here
`0x01`) before the buffer is full does not fail with the
invalid-character error — the scan succeeds with the zero-padded
prefix. -/
theorem scanCode_dead_invalid_error :
    scanCode 4 ('a' :: 'b' :: '\x01' :: []) = .ok (97 :: 98 :: 0 :: 0 :: [])
    ∧ ¬(scanCode 4 ('a' :: 'b' :: '\x01' :: []) = .error .invalidChar) := by
  decide

/-- C9: the empty variable-opaque renders as the literal `0 bytes`, the
literal token `0` scans back to the empty sequence, and a nonempty
sequence hex-renders and scans back to the same bytes. -/
theorem vecOpaque_roundtrip :
    PrintVecOpaque [] = ofStr "0 bytes"
    ∧ decodeNode .vecOS ('b' :: []) 0 (.vecOV (1 :: []))
        ⟨[(('b' :: []), ⟨1, ' ' :: '0' :: []⟩)], []⟩
      = (.vecOV [], delSt ⟨[(('b' :: []), ⟨1, ' ' :: '0' :: []⟩)], []⟩ ('b' :: []))
    ∧ (∀ bs, bs ≠ [] → (∀ b ∈ bs, b < 256) →
        vecOParse (' ' :: PrintVecOpaque bs) = some bs) :=
  ⟨by decide, by decide, fun _ hne hlt => vecOParse_enc hne hlt⟩

/-- C10: a bounded-size field whose `.len` key is absent gets size `0`
(the element chain is emptied, whatever the prior held) and no error,
while a scalar field (here a `uint32`) with an absent key keeps the
prior value and the state untouched. -/
theorem absent_len_zeroes_size (bound : Nat) (elem : Shape) (name : Chars)
    (pd : Nat) (prior : Val) (st : ScanSt)
    (habs : kvsHas st.kvs (name ++ '.' :: ofStr "len") = false) :
    (decodeNode (.vecS bound elem) name pd prior st).1 = .vecV .nilV
    ∧ (decodeNode (.vecS bound elem) name pd prior st).2.errs = st.errs
    ∧ ∀ (prior2 : Val) (st2 : ScanSt), kvsHas st2.kvs name = false →
        decodeNode .u32S name pd prior2 st2 = (prior2, st2) := by
  have hlv : kvsGet st.kvs (name ++ '.' :: ofStr "len") = ⟨0, []⟩ :=
    kvsGet_not_has habs
  have hpn : parseU32 ([] : Chars) = none := by decide
  have hdec : decodeNode (.vecS bound elem) name pd prior st
      = (.vecV .nilV, delSt (delSt st name) name) := by
    simp only [decodeNode, hlv, hpn, Option.getD_none, if_pos (Nat.zero_le bound),
      resizeChain_zero]
    rfl
  rw [hdec]
  refine ⟨rfl, rfl, ?_⟩
  intro prior2 st2 h2
  simp only [decodeNode]
  rw [if_neg (by simp [h2])]

/-- C10 (witness): a concrete bounded vector with no `.len` line. -/
theorem absent_len_zeroes_size_witness :
    (decodeNode (.vecS 5 .u32S) ('v' :: []) 0
        (.vecV (.consV (.u32V 9) .nilV)) ⟨[], []⟩).1 = .vecV .nilV
    ∧ (decodeNode (.vecS 5 .u32S) ('v' :: []) 0
        (.vecV (.consV (.u32V 9) .nilV)) ⟨[], []⟩).2.errs = []
    ∧ ∀ (prior2 : Val) (st2 : ScanSt), kvsHas st2.kvs ('v' :: []) = false →
        decodeNode .u32S ('v' :: []) 0 prior2 st2 = (prior2, st2) :=
  absent_len_zeroes_size 5 .u32S ('v' :: []) 0
    (.vecV (.consV (.u32V 9) .nilV)) ⟨[], []⟩ (by decide)

/-- C6: `ScaleFmt` agrees with the spec's `renderScaled` formulation
(split at `10^exp`, base-1000 comma grouping, trimmed zero-padded
fraction, sign, `e`+exp) at every value and exponent, and produces the
spec's three cited examples. -/
theorem ScaleFmt_spec :
    (∀ (v : Int) (e : Nat), ScaleFmt v e = renderScaled v e)
    ∧ ScaleFmtS 123456789 7 = "12.3456789e7"
    ∧ ScaleFmtS 0 7 = "0e7"
    ∧ ScaleFmtS (-5000000) 7 = "-0.5e7" :=
  ⟨ScaleFmt_eq_renderScaled, by decide, by decide, by decide⟩

/-- C1 (witness): a concrete two-element bounded vector inside a struct
round-trips through the emitted document with no errors. -/
theorem fromTxrep_toTxrep_witness :
    XdrFromTxrep (XdrToTxrep ('t' :: []) (.fieldS ('f' :: []) (.vecS 3 .u32S) .endS)
        (.fieldV (.vecV (.consV (.u32V 1) (.consV (.u32V 2) .nilV))) .endV))
      ('t' :: []) (.fieldS ('f' :: []) (.vecS 3 .u32S) .endS)
      (zeroVal (.fieldS ('f' :: []) (.vecS 3 .u32S) .endS))
    = (.fieldV (.vecV (.consV (.u32V 1) (.consV (.u32V 2) .nilV))) .endV, []) :=
  fromTxrep_toTxrep (.fieldS ('f' :: []) (.vecS 3 .u32S) .endS)
    (.fieldV (.vecV (.consV (.u32V 1) (.consV (.u32V 2) .nilV))) .endV)
    (zeroVal (.fieldS ('f' :: []) (.vecS 3 .u32S) .endS)) ('t' :: [])
    (by decide) (by decide) (by decide) (by decide) (by decide) (by decide)
    (by decide)

/-- C1 (counterexample): a tree whose vector holds more elements than
the declared bound (its only non-scalar data, no opaque code fields at
all) does not round-trip — the decoder clamps the vector to the bound
and reports the excess. -/
theorem overbound_vec_counterexample :
    XdrFromTxrep
        (XdrToTxrep ('t' :: []) (.fieldS ('f' :: []) (.vecS 2 .u32S) .endS)
          (.fieldV (.vecV (.consV (.u32V 1) (.consV (.u32V 2)
            (.consV (.u32V 3) .nilV)))) .endV))
        ('t' :: []) (.fieldS ('f' :: []) (.vecS 2 .u32S) .endS)
        (zeroVal (.fieldS ('f' :: []) (.vecS 2 .u32S) .endS))
      = (.fieldV (.vecV (.consV (.u32V 1) (.consV (.u32V 2) .nilV))) .endV,
         [(1, msgSizeExceeds ('t' :: '.' :: 'f' :: []) 3 2)])
    ∧ ¬(XdrFromTxrep
        (XdrToTxrep ('t' :: []) (.fieldS ('f' :: []) (.vecS 2 .u32S) .endS)
          (.fieldV (.vecV (.consV (.u32V 1) (.consV (.u32V 2)
            (.consV (.u32V 3) .nilV)))) .endV))
        ('t' :: []) (.fieldS ('f' :: []) (.vecS 2 .u32S) .endS)
        (zeroVal (.fieldS ('f' :: []) (.vecS 2 .u32S) .endS))
      = (.fieldV (.vecV (.consV (.u32V 1) (.consV (.u32V 2)
          (.consV (.u32V 3) .nilV)))) .endV, [])) := by
  decide

/-- C3: a document beginning with one non-blank colonless line, followed
by the well-formed field lines of an encoded tree, decodes with exactly
one syntax error citing that line's number (line 1) and still populates
every field of the tree. -/
theorem decode_syntax_error_line (s : Shape) (v t0 : Val) (name bad : Chars)
    (hws : WfShape s = true) (hwv : WfVal s v = true)
    (hib : InBounds s v = true) (hwt : WfVal s t0 = true)
    (hsep : SepOk s v name 0 = true) (hnm : nameOk name = true)
    (hnd : ((encodeNode s v name 0).map Prod.fst).Nodup)
    (hbadne : bad ≠ [])
    (hbadsafe : ∀ c ∈ bad, ¬(c = '\n') ∧ ¬(c = '\r') ∧ ¬(c = ':')) :
    XdrFromTxrep (bad ++ '\n' :: XdrToTxrep name s v) name s t0
      = (v, [(1, msgSyntax)]) := by
  have hsafe := encode_safe s v name 0 hws hwv hnm
  have hsplit := splitNl_doc (encodeNode s v name 0) hsafe
  have hsn : splitNl (bad ++ '\n'
        :: ((encodeNode s v name 0).map
          (fun kv => kv.1 ++ ':' :: kv.2 ++ ['\n'])).flatten)
      = bad :: ((encodeNode s v name 0).map (fun p => p.1 ++ ':' :: p.2)
          ++ [[]]) := by
    rw [splitNl_line bad _ (fun c hc => (hbadsafe c hc).1), hsplit]
  have hstep : readKvsGo (bad :: ((encodeNode s v name 0).map
        (fun p => p.1 ++ ':' :: p.2) ++ [[]])) 0 ⟨[], []⟩
      = readKvsGo ((encodeNode s v name 0).map (fun p => p.1 ++ ':' :: p.2)
          ++ [[]]) 1 (report ⟨[], []⟩ 1 msgSyntax) := by
    conv_lhs => simp only [readKvsGo]
    rw [stripCR_safe bad (fun c hc => (hbadsafe c hc).2.1), if_neg hbadne,
      splitColon_none bad (fun c hc => (hbadsafe c hc).2.2)]
  have hread : readKvsGo ((encodeNode s v name 0).map
        (fun p => p.1 ++ ':' :: p.2) ++ [[]]) 1 (report ⟨[], []⟩ 1 msgSyntax)
      = (⟨putAll [] (encodeNode s v name 0) 1, [(1, msgSyntax)]⟩ : ScanSt) := by
    rw [readKvsGo_pairs (encodeNode s v name 0) 1 (report ⟨[], []⟩ 1 msgSyntax)
      hsafe]
    rfl
  have hag : Agrees ⟨putAll [] (encodeNode s v name 0) 1, [(1, msgSyntax)]⟩
      (encodeNode s v name 0) := by
    intro p hp
    exact putAll_mem (encodeNode s v name 0) [] 1 p.1 p.2 hnd hp
  have hd := decode_encode s v name 0 t0
    ⟨putAll [] (encodeNode s v name 0) 1, [(1, msgSyntax)]⟩
    hws hwv hib hwt hsep hag
  unfold XdrFromTxrep XdrToTxrep
  rw [hsn, hstep, hread]
  show (_, _) = (v, [(1, msgSyntax)])
  rw [hd.1, hd.2.1]

/-- C3 (witness): a concrete struct document with a colonless first
line. -/
theorem decode_syntax_error_line_witness :
    XdrFromTxrep (('o' :: 'o' :: 'p' :: 's' :: [])
        ++ '\n' :: XdrToTxrep ('t' :: []) (.fieldS ('f' :: []) .u32S .endS)
          (.fieldV (.u32V 7) .endV))
      ('t' :: []) (.fieldS ('f' :: []) .u32S .endS)
      (zeroVal (.fieldS ('f' :: []) .u32S .endS))
    = (.fieldV (.u32V 7) .endV, [(1, msgSyntax)]) :=
  decode_syntax_error_line (.fieldS ('f' :: []) .u32S .endS)
    (.fieldV (.u32V 7) .endV) (zeroVal (.fieldS ('f' :: []) .u32S .endS))
    ('t' :: []) ('o' :: 'o' :: 'p' :: 's' :: [])
    (by decide) (by decide) (by decide) (by decide) (by decide) (by decide)
    (by decide) (by decide) (by decide)

/-- C2: a document whose `.len` line carries a size above the vector's
bound (the element lines encoding a chain that fills the bound exactly)
decodes with the stored size clamped to the bound, exactly one error
citing the `.len` line's number, and every element still populated. -/
theorem decode_clamps_oversize_len (bound : Nat) (elem : Shape) (es t0 : Val)
    (name : Chars) (size0 : Nat)
    (hws : WfShape (.vecS bound elem) = true)
    (hwv : WfVal (.vecS bound elem) (.vecV es) = true)
    (hib : InBounds (.vecS bound elem) (.vecV es) = true)
    (hwt : WfVal (.vecS bound elem) t0 = true)
    (hsep : SepOk (.vecS bound elem) (.vecV es) name 0 = true)
    (hnm : nameOk name = true)
    (hnd : ((encodeNode (.vecS bound elem) (.vecV es) name 0).map Prod.fst).Nodup)
    (hover : bound < size0) (hsz32 : size0 < 2 ^ 32)
    (hfull : chainLen es = bound) :
    XdrFromTxrep
      ((((lenKeyEnc name, ' ' :: natDec size0)
          :: encodeSeqGo (fun nm w => encodeNode elem w nm 0) name 0 es).map
            (fun kv => kv.1 ++ ':' :: kv.2 ++ ['\n'])).flatten)
      name (.vecS bound elem) t0
      = (.vecV es, [(1, msgSizeExceeds name size0 bound)]) := by
  simp only [WfShape, Bool.and_eq_true, decide_eq_true_eq] at hws
  obtain ⟨hbound, hwse⟩ := hws
  simp only [InBounds, Bool.and_eq_true, decide_eq_true_eq] at hib
  obtain ⟨hlen, hibes⟩ := hib
  simp only [SepOk, Bool.and_eq_true, List.all_eq_true] at hsep
  obtain ⟨⟨⟨hne, hkeys⟩, hss⟩, hsa⟩ := hsep
  have hnn : ¬(name = []) := by
    cases name with
    | nil => simp at hne
    | cons a l => simp
  have hlk : lenKeyEnc name = name ++ '.' :: ofStr "len" := by
    unfold lenKeyEnc
    rw [if_neg hnn, List.append_assoc]
    rfl
  have hsafe : ∀ p ∈ (lenKeyEnc name, ' ' :: natDec size0)
        :: encodeSeqGo (fun nm w => encodeNode elem w nm 0) name 0 es,
      (∀ c ∈ p.1, keySafeChar c = true) ∧ (∀ c ∈ p.2, valSafeChar c = true) := by
    intro p hp
    rcases List.mem_cons.mp hp with rfl | hp
    · refine ⟨by simpa [nameOk, List.all_eq_true] using nameOk_lenKey hnm, ?_⟩
      intro c hc
      rcases List.mem_cons.mp hc with rfl | hc
      · decide
      · exact valSafe_of_keySafe (natDec_keySafe _ c hc)
    · exact encodeSeq_safe elem 0 (fun v2 nm2 => encode_safe elem v2 nm2 0 hwse)
        es name 0 hwv hnm p hp
  have hkeyeq : ((lenKeyEnc name, ' ' :: natDec size0)
        :: encodeSeqGo (fun nm w => encodeNode elem w nm 0) name 0 es).map
          Prod.fst
      = ((encodeNode (.vecS bound elem) (.vecV es) name 0).map Prod.fst) := rfl
  have hnd2 : (((lenKeyEnc name, ' ' :: natDec size0)
        :: encodeSeqGo (fun nm w => encodeNode elem w nm 0) name 0 es).map
          Prod.fst).Nodup := by
    rw [hkeyeq]
    exact hnd
  have hnotin : (lenKeyEnc name, ' ' :: natDec size0).1
      ∉ (encodeSeqGo (fun nm w => encodeNode elem w nm 0) name 0 es).map
          Prod.fst := by
    have h2 := hnd2
    simp only [List.map_cons, List.nodup_cons] at h2
    exact h2.1
  have hhead := putAll_head (lenKeyEnc name, ' ' :: natDec size0)
    (encodeSeqGo (fun nm w => encodeNode elem w nm 0) name 0 es) [] 0 hnotin
  have hgv : kvsGet (putAll [] ((lenKeyEnc name, ' ' :: natDec size0)
        :: encodeSeqGo (fun nm w => encodeNode elem w nm 0) name 0 es) 0)
        (name ++ '.' :: ofStr "len")
      = ⟨1, ' ' :: natDec size0⟩ := by
    rw [← hlk]
    exact hhead.1
  have hsplit := splitNl_doc ((lenKeyEnc name, ' ' :: natDec size0)
    :: encodeSeqGo (fun nm w => encodeNode elem w nm 0) name 0 es) hsafe
  have hread : readKvsGo (((lenKeyEnc name, ' ' :: natDec size0)
        :: encodeSeqGo (fun nm w => encodeNode elem w nm 0) name 0 es).map
          (fun p => p.1 ++ ':' :: p.2) ++ [[]]) 0 ⟨[], []⟩
      = (⟨putAll [] ((lenKeyEnc name, ' ' :: natDec size0)
          :: encodeSeqGo (fun nm w => encodeNode elem w nm 0) name 0 es) 0,
          []⟩ : ScanSt) := by
    rw [readKvsGo_pairs _ 0 ⟨[], []⟩ hsafe]
  have hagt0 : Agrees ⟨putAll [] ((lenKeyEnc name, ' ' :: natDec size0)
        :: encodeSeqGo (fun nm w => encodeNode elem w nm 0) name 0 es) 0, []⟩
      (encodeSeqGo (fun nm w => encodeNode elem w nm 0) name 0 es) := by
    intro p hp
    exact putAll_mem _ [] 0 p.1 p.2 hnd2 (List.mem_cons_of_mem _ hp)
  have hpres : Preserves ⟨putAll [] ((lenKeyEnc name, ' ' :: natDec size0)
        :: encodeSeqGo (fun nm w => encodeNode elem w nm 0) name 0 es) 0, []⟩
      (delSt (report ⟨putAll [] ((lenKeyEnc name, ' ' :: natDec size0)
        :: encodeSeqGo (fun nm w => encodeNode elem w nm 0) name 0 es) 0, []⟩
        1 (msgSizeExceeds name size0 bound)) name) [name] := by
    intro k hk
    simp only [List.mem_singleton] at hk
    exact ⟨kvsGet_del_ne _ _ _ hk, kvsHas_del_ne _ _ _ hk⟩
  have hagt : Agrees (delSt (report ⟨putAll []
        ((lenKeyEnc name, ' ' :: natDec size0)
          :: encodeSeqGo (fun nm w => encodeNode elem w nm 0) name 0 es) 0, []⟩
        1 (msgSizeExceeds name size0 bound)) name)
      (encodeSeqGo (fun nm w => encodeNode elem w nm 0) name 0 es) := by
    apply agrees_of_preserves hagt0 hpres
    intro p hp
    have hkm : p.1 ∈ chainKeys (fun nm w => encKeys elem w nm 0) name 0 es := by
      rw [← chainKeys_encodeSeq]
      exact List.mem_map_of_mem Prod.fst hp
    have hne2 := hkeys p.1 hkm
    simp only [Bool.not_eq_true', beq_eq_false_iff_ne] at hne2
    simp [hne2]
  obtain ⟨ps, hpw, hstep⟩ : ∃ ps, valChainAll (WfVal elem) ps = true
      ∧ decodeNode (.vecS bound elem) name 0 t0
          ⟨putAll [] ((lenKeyEnc name, ' ' :: natDec size0)
            :: encodeSeqGo (fun nm w => encodeNode elem w nm 0) name 0 es) 0, []⟩
        = (.vecV (decodeSeqGo (fun nm w stw => decodeNode elem nm 0 w stw) name 0
              (resizeChain ps bound (zeroVal elem))
              (delSt (report ⟨putAll [] ((lenKeyEnc name, ' ' :: natDec size0)
                :: encodeSeqGo (fun nm w => encodeNode elem w nm 0) name 0 es) 0,
                []⟩ 1 (msgSizeExceeds name size0 bound)) name)).1,
           delSt (decodeSeqGo (fun nm w stw => decodeNode elem nm 0 w stw) name 0
              (resizeChain ps bound (zeroVal elem))
              (delSt (report ⟨putAll [] ((lenKeyEnc name, ' ' :: natDec size0)
                :: encodeSeqGo (fun nm w => encodeNode elem w nm 0) name 0 es) 0,
                []⟩ 1 (msgSizeExceeds name size0 bound)) name)).2 name) := by
    cases t0 with
    | vecV es2 =>
      refine ⟨es2, hwt, ?_⟩
      simp only [decodeNode, hgv, parseU32_val hsz32, Option.getD_some,
        if_neg (show ¬(size0 ≤ bound) by omega)]
    | _ => simp [WfVal] at hwt
  have hbasewf : valChainAll (WfVal elem)
      (resizeChain ps bound (zeroVal elem)) = true :=
    valChainAll_resize (zeroVal_wf elem) bound ps hpw
  have hbaselen : chainLen (resizeChain ps bound (zeroVal elem))
      = chainLen es := by
    rw [chainLen_resize, hfull]
  have hseq := decodeSeq_encode elem 0
    (fun v2 nm2 => decode_encode elem v2 nm2 0) es name 0
    (resizeChain ps bound (zeroVal elem))
    (delSt (report ⟨putAll [] ((lenKeyEnc name, ' ' :: natDec size0)
      :: encodeSeqGo (fun nm w => encodeNode elem w nm 0) name 0 es) 0, []⟩
      1 (msgSizeExceeds name size0 bound)) name)
    hwse hwv hibes hbasewf hbaselen hsa hss hagt
  unfold XdrFromTxrep
  rw [hsplit, hread]
  show (_, _) = (.vecV es, [(1, msgSizeExceeds name size0 bound)])
  rw [hstep, hseq.1]
  have herr := hseq.2.1
  rw [show (delSt (decodeSeqGo (fun nm w stw => decodeNode elem nm 0 w stw) name 0
      (resizeChain ps bound (zeroVal elem))
      (delSt (report ⟨putAll [] ((lenKeyEnc name, ' ' :: natDec size0)
        :: encodeSeqGo (fun nm w => encodeNode elem w nm 0) name 0 es) 0, []⟩
        1 (msgSizeExceeds name size0 bound)) name)).2 name).errs
    = (decodeSeqGo (fun nm w stw => decodeNode elem nm 0 w stw) name 0
      (resizeChain ps bound (zeroVal elem))
      (delSt (report ⟨putAll [] ((lenKeyEnc name, ' ' :: natDec size0)
        :: encodeSeqGo (fun nm w => encodeNode elem w nm 0) name 0 es) 0, []⟩
        1 (msgSizeExceeds name size0 bound)) name)).2.errs from rfl, herr]
  rfl

/-- C2 (witness): a concrete two-element vector document with `.len`
claiming 3 against bound 2. -/
theorem decode_clamps_oversize_len_witness :
    XdrFromTxrep
      ((((lenKeyEnc ('v' :: []), ' ' :: natDec 3)
          :: encodeSeqGo (fun nm w => encodeNode .u32S w nm 0) ('v' :: []) 0
            (.consV (.u32V 1) (.consV (.u32V 2) .nilV))).map
            (fun kv => kv.1 ++ ':' :: kv.2 ++ ['\n'])).flatten)
      ('v' :: []) (.vecS 2 .u32S) (zeroVal (.vecS 2 .u32S))
    = (.vecV (.consV (.u32V 1) (.consV (.u32V 2) .nilV)),
       [(1, msgSizeExceeds ('v' :: []) 3 2)]) :=
  decode_clamps_oversize_len 2 .u32S (.consV (.u32V 1) (.consV (.u32V 2) .nilV))
    (zeroVal (.vecS 2 .u32S)) ('v' :: []) 3
    (by decide) (by decide) (by decide) (by decide) (by decide) (by decide)
    (by decide) (by decide) (by decide) (by decide)

end StcTxrep
